import Mathlib

/-!
Verification development for the AGAR lattice generator.

The embedding follows the four source files of the repository. Positions and
cell dimensions are modelled as exact rationals. Python float arithmetic on
small integers and simple fractions is exact, so the idealisation is faithful
for the quantities the theorems speak about; the square root inside the chain
discretisation is modelled exactly through an integer search that provably
computes the floor of sqrt plus the safety epsilon.

Python objects of class Atom are mutated in place and compared by identity.
The embedding keeps every atom ever created in a heap list; the atom with
identifier k lives at heap position k - 1, which reproduces the identity
semantics because identifiers are assigned from a monotone counter. The
field atom_count of the Python class always equals the heap length, so it is
not stored separately. Lists of atoms in the Python code become lists of
identifiers here.
-/

/-- Vector of three rational coordinates, the model of a numpy float triple. -/
abbrev Vec3 := ℚ × ℚ × ℚ

/-- Integer cell index triple. -/
abbrev Cell3 := ℤ × ℤ × ℤ

/-- Componentwise addition, the model of np.add on triples. -/
def add3 (a b : Vec3) : Vec3 := (a.1 + b.1, a.2.1 + b.2.1, a.2.2 + b.2.2)

/-- Componentwise subtraction, the model of np.subtract on triples. -/
def sub3 (a b : Vec3) : Vec3 := (a.1 - b.1, a.2.1 - b.2.1, a.2.2 - b.2.2)

/-- Scalar multiplication of a triple, the model of np.multiply with a scalar. -/
def smul3 (q : ℚ) (a : Vec3) : Vec3 := (q * a.1, q * a.2.1, q * a.2.2)

/-- Componentwise division by a scalar, the model of vector / vector_length. -/
def divScal3 (a : Vec3) (q : ℚ) : Vec3 := (a.1 / q, a.2.1 / q, a.2.2 / q)

/-- Sum of squares of the components, the model of np.sum of np.square. -/
def sqNorm3 (a : Vec3) : ℚ := a.1 * a.1 + a.2.1 * a.2.1 + a.2.2 * a.2.2

/-- Integer triple addition, the model of np.add on cell indices. -/
def cellAdd (a b : Cell3) : Cell3 := (a.1 + b.1, a.2.1 + b.2.1, a.2.2 + b.2.2)

/-- Integer triple subtraction, the model of np.subtract on cell indices. -/
def cellSub (a b : Cell3) : Cell3 := (a.1 - b.1, a.2.1 - b.2.1, a.2.2 - b.2.2)

/-- Negation of a cell crossing triple, the model of np.multiply with minus one. -/
def cellNeg (a : Cell3) : Cell3 := (-a.1, -a.2.1, -a.2.2)

/-- Origin offset of a cell, the model of np.multiply of cell index and dims. -/
def cellOrigin (c : Cell3) (dims : Vec3) : Vec3 :=
  ((c.1 : ℚ) * dims.1, (c.2.1 : ℚ) * dims.2.1, (c.2.2 : ℚ) * dims.2.2)

/-- Template point, from class Point of Cell.py. -/
structure Point where
  point_id : ℤ
  coords : Vec3
deriving DecidableEq, Repr

/-- Template connection, from class Connection of Cell.py. The default of
None for the crossing argument is resolved to the zero triple by the
constructor, so the field here is already the resolved triple. -/
structure Connection where
  origin : ℤ
  partner : ℤ
  cell_crossings : Cell3
deriving DecidableEq, Repr

/-- Cell geometry, from class Cell of Cell.py. -/
structure Cell where
  points : List Point
  connections : List Connection
  dims : Vec3
deriving DecidableEq, Repr

/-- Lattice atom, from class Atom of Lattice.py. The id field of the Python
class is not stored: the atom with id k sits at heap position k - 1. The
bonds field is the mutable degree counter. -/
structure Atom where
  position : Vec3
  point_type : Option ℤ
  owning_cell : Option Cell3
  bonds : ℤ
deriving DecidableEq, Repr

/-- Output bond record, from the dict built in Lattice populate. -/
structure Bond where
  bond_id : ℕ
  point1 : ℕ
  point2 : ℕ
deriving DecidableEq, Repr

/-- Mutable state of a Lattice instance during build_lists. -/
structure BuildState where
  heap : List Atom
  full_atom_list : List ℕ
  vector_list : List (ℕ × ℕ)
  full_bond_list : List Bond
  bond_count : ℕ
deriving DecidableEq, Repr

/-- Placeholder atom returned by heap lookup at an invalid id; never reached
on the states produced by a build, where all stored ids are valid. -/
def deadAtom : Atom := { position := (0, 0, 0), point_type := none, owning_cell := none, bonds := 0 }

/-- Heap lookup by atom id. -/
def atomAt (hp : List Atom) (id : ℕ) : Atom := hp.getD (id - 1) deadAtom

/-- Degree of the atom with the given id. -/
def degOf (hp : List Atom) (id : ℕ) : ℤ := (atomAt hp id).bonds

/-- Adjust the bonds counter of the atom at a heap position. -/
def bumpAt : List Atom → ℕ → ℤ → List Atom
  | [], _, _ => []
  | a :: t, 0, d => { a with bonds := a.bonds + d } :: t
  | a :: t, n + 1, d => a :: bumpAt t n d

/-- Adjust the bonds counter of the atom with the given id. -/
def bumpDeg (hp : List Atom) (id : ℕ) (d : ℤ) : List Atom := bumpAt hp (id - 1) d

/-- Create an atom: increment atom_count, give the new atom the new count as
id, and append it to the full atom list. From the repeated creation pattern
of Lattice.py. -/
def pushAtom (st : BuildState) (a : Atom) : BuildState :=
  { st with heap := st.heap ++ [a],
            full_atom_list := st.full_atom_list ++ [st.heap.length + 1] }

/-- Append a bond record with the next sequential bond id, from the lines
incrementing bond_count and appending to full_bond_list. -/
def pushBond (st : BuildState) (p1 p2 : ℕ) : BuildState :=
  { st with bond_count := st.bond_count + 1,
            full_bond_list := st.full_bond_list ++
              [{ bond_id := st.bond_count + 1, point1 := p1, point2 := p2 }] }

/-- Numerical safety epsilon, field float_safety of Lattice. -/
def float_safety : ℚ := 1 / 1000000

/-- Search bound used to compute the floor of sqrt plus epsilon; sqrt of s
plus the epsilon is at most this bound for every nonnegative s. -/
def sqrtBound (s : ℚ) : ℕ := (Int.ceil s).toNat + 1

/-- Predicate: the natural n satisfies n less or equal sqrt of s plus the
safety epsilon, written without square roots. -/
def lenPred (s : ℚ) (n : ℕ) : Prop := n = 0 ∨ ((n : ℚ) - float_safety) ^ 2 ≤ s

instance (s : ℚ) (n : ℕ) : Decidable (lenPred s n) := by
  unfold lenPred; infer_instance

/-- The value int of np.floor of np.sqrt of s plus float_safety, computed
exactly on rationals: the greatest natural below the bound satisfying
lenPred. Models line 155 of Lattice.py. -/
def vectorLengthQ (s : ℚ) : ℕ := Nat.findGreatest (lenPred s) (sqrtBound s)

/-- Filler atom created during chain discretisation: no point_type and no
owning_cell. -/
def fillerAtom (pos : Vec3) : Atom :=
  { position := pos, point_type := none, owning_cell := none, bonds := 0 }

/-- Loop body of populate_vector, lines 159 to 174 of Lattice.py. The index
i runs from 0 while the fuel counts the remaining iterations; lastId is the
id of the most recently created filler atom, modelling the Python variable
new_atom across iterations. -/
def popLoop (origin partner : ℕ) (opos step : Vec3) (vl : ℕ) :
    ℕ → ℕ → ℕ → BuildState → BuildState
  | _, 0, _, st => st
  | i, fuel + 1, lastId, st =>
    let createNew := i < vl - 1
    let st1 := if createNew then
        pushAtom st (fillerAtom (add3 opos (smul3 ((i : ℚ) + 1) step)))
      else st
    let lastId1 := if createNew then st.heap.length + 1 else lastId
    let bondOrigin := if createNew then st.heap.length + 1 else partner
    let bondPartner :=
      if i = 0 then origin
      else if createNew then lastId1 - 1
      else lastId1
    popLoop origin partner opos step vl (i + 1) fuel lastId1 (pushBond st1 bondOrigin bondPartner)

/-- Method populate_vector of Lattice.py: discretise the segment between the
two atoms of a vector pair into unit sub-bonds with filler atoms. -/
def populateVector (st : BuildState) (pr : ℕ × ℕ) : BuildState :=
  let opos := (atomAt st.heap pr.1).position
  let ppos := (atomAt st.heap pr.2).position
  let vec := sub3 ppos opos
  let raw := vectorLengthQ (sqNorm3 vec)
  let vl := if raw < 1 then 1 else raw
  let step := divScal3 vec (vl : ℚ)
  popLoop pr.1 pr.2 opos step vl 0 vl 0 st

/-- Final loop of build_lists: populate every vector pair. -/
def populateAll (st : BuildState) : BuildState :=
  st.vector_list.foldl populateVector st

/-- Mirrored bond staged during phase 1, from the dict appended to
mirrored_bond_list in build_lists. -/
structure MirrorEntry where
  connection : Connection
  origin_cell : Cell3
deriving DecidableEq, Repr

/-- State threaded through phase 1: the build state plus the staged
mirrored bonds. -/
structure P1State where
  bs : BuildState
  mirrors : List MirrorEntry
deriving DecidableEq, Repr

/-- Empty phase 1 state, matching the fields set by the Lattice constructor
before build_lists runs. -/
def p1Init : P1State :=
  { bs := { heap := [], full_atom_list := [], vector_list := [],
            full_bond_list := [], bond_count := 0 },
    mirrors := [] }

/-- Replication grid in the iteration order of itertools.product: the last
coordinate varies fastest. -/
def cellList (size : ℕ × ℕ × ℕ) : List Cell3 :=
  (List.range size.1).flatMap (fun x =>
    (List.range size.2.1).flatMap (fun y =>
      (List.range size.2.2).map (fun z => (((x : ℕ) : ℤ), ((y : ℕ) : ℤ), ((z : ℕ) : ℤ)))))

/-- Boolean test used by the deduplication scans of phase 1: the atom has
the given point type and owning cell. -/
def projMatch (a : Atom) (pid : ℤ) (cellIdx : Cell3) : Bool :=
  decide (a.point_type = some pid ∧ a.owning_cell = some cellIdx)

/-- Deduplication scan over the full atom list, from the next calls with a
None default on lines 104 and 115 of Lattice.py. -/
def existsAtom (bs : BuildState) (pid : ℤ) (cellIdx : Cell3) : Bool :=
  bs.full_atom_list.any (fun id => projMatch (atomAt bs.heap id) pid cellIdx)

/-- Coordinate lookup of a template point by id, from the next calls without
a default on lines 102 and 113 of Lattice.py; a missing id raises
StopIteration there, modelled as the error case. -/
def findCoords (pts : List Point) (pid : ℤ) : Except String Vec3 :=
  match pts.find? (fun q => decide (q.point_id = pid)) with
  | some q => .ok q.coords
  | none => .error "StopIteration"

/-- First half of the processing of one template connection at one cell
during phase 1, lines 101 to 107 of Lattice.py: when the target cell lies
outside the grid, look up the partner coordinates and create the boundary
atom unless one with the same point type and owning cell already exists. -/
def phase1ConnTarget (pts : List Point) (dims : Vec3) (cells : List Cell3)
    (c : Cell3) (conn : Connection) (st : P1State) : Except String P1State :=
  let target := cellAdd c conn.cell_crossings
  if target ∈ cells then pure st
  else do
    let pcoords ← findCoords pts conn.partner
    let newA : Atom := { position := add3 (cellOrigin target dims) pcoords,
                         point_type := some conn.partner, owning_cell := some target,
                         bonds := 0 }
    if existsAtom st.bs conn.partner target then pure st
    else pure { st with bs := pushAtom st.bs newA }

/-- Second half of the processing of one template connection at one cell
during phase 1, lines 109 to 126 of Lattice.py: when symmetric is enabled
and the mirrored target cell lies outside the grid, look up the origin
coordinates, create the mirrored boundary atom unless present, and stage
the mirrored connection. -/
def phase1ConnSym (pts : List Point) (dims : Vec3) (cells : List Cell3)
    (symmetric : Bool) (c : Cell3) (conn : Connection) (st1 : P1State) :
    Except String P1State :=
  if symmetric then
    let mtarget := cellSub c conn.cell_crossings
    if mtarget ∈ cells then pure st1
    else do
      let ocoords ← findCoords pts conn.origin
      let newM : Atom := { position := add3 (cellOrigin mtarget dims) ocoords,
                           point_type := some conn.origin, owning_cell := some mtarget,
                           bonds := 0 }
      let st2 :=
        if existsAtom st1.bs conn.origin mtarget then st1
        else { st1 with bs := pushAtom st1.bs newM }
      let mc : Connection := { origin := conn.partner, partner := conn.origin,
                               cell_crossings := cellNeg conn.cell_crossings }
      pure { st2 with mirrors := st2.mirrors ++ [{ connection := mc, origin_cell := c }] }
  else
    pure st1

/-- Processing of one template connection at one cell during phase 1, lines
97 to 126 of Lattice.py: the boundary atom step followed by the symmetric
mirroring step. -/
def phase1Conn (pts : List Point) (dims : Vec3) (cells : List Cell3) (symmetric : Bool)
    (c : Cell3) (st : P1State) (conn : Connection) : Except String P1State := do
  let st1 ← phase1ConnTarget pts dims cells c conn st
  phase1ConnSym pts dims cells symmetric c conn st1

/-- Fold of phase1Conn over the template connections. -/
def phase1Conns (pts : List Point) (dims : Vec3) (cells : List Cell3) (symmetric : Bool)
    (c : Cell3) : List Connection → P1State → Except String P1State
  | [], st => .ok st
  | conn :: rest, st => do
    phase1Conns pts dims cells symmetric c rest (← phase1Conn pts dims cells symmetric c st conn)

/-- Replication of the template points into one cell, lines 91 to 94 of
Lattice.py. -/
def gridAtoms (pts : List Point) (dims : Vec3) (c : Cell3) (bs : BuildState) : BuildState :=
  pts.foldl (fun s q => pushAtom s
    { position := add3 (cellOrigin c dims) q.coords,
      point_type := some q.point_id, owning_cell := some c, bonds := 0 }) bs

/-- Phase 1 processing of one cell: replicate the points, then, when
dangling is enabled, process every connection. -/
def phase1Cell (pts : List Point) (conns : List Connection) (dims : Vec3)
    (cells : List Cell3) (dangling symmetric : Bool) (st : P1State) (c : Cell3) :
    Except String P1State :=
  let st1 : P1State := { st with bs := gridAtoms pts dims c st.bs }
  if dangling then phase1Conns pts dims cells symmetric c conns st1 else .ok st1

/-- Fold of phase1Cell over the replication grid. -/
def phase1Go (pts : List Point) (conns : List Connection) (dims : Vec3)
    (cells : List Cell3) (dangling symmetric : Bool) :
    List Cell3 → P1State → Except String P1State
  | [], st => .ok st
  | c :: rest, st => do
    phase1Go pts conns dims cells dangling symmetric rest
      (← phase1Cell pts conns dims cells dangling symmetric st c)

/-- Phase 1 of build_lists, lines 85 to 126 of Lattice.py. -/
def phase1 (pts : List Point) (conns : List Connection) (dims : Vec3)
    (size : ℕ × ℕ × ℕ) (dangling symmetric : Bool) : Except String P1State :=
  phase1Go pts conns dims (cellList size) dangling symmetric (cellList size) p1Init

/-- Phase 2 resolution of one effective connection at one cell, lines 132 to
142 of Lattice.py: locate the origin and partner atoms by linear scan and,
when both are found, increment their degrees and record the vector pair. -/
def resolveConn (c : Cell3) (st : BuildState) (conn : Connection) : BuildState :=
  let o? := st.full_atom_list.find? (fun id =>
    projMatch (atomAt st.heap id) conn.origin c)
  let p? := st.full_atom_list.find? (fun id =>
    projMatch (atomAt st.heap id) conn.partner (cellAdd c conn.cell_crossings))
  match o?, p? with
  | some o, some p =>
    { st with heap := bumpDeg (bumpDeg st.heap o 1) p 1,
              vector_list := st.vector_list ++ [(o, p)] }
  | _, _ => st

/-- Phase 2 processing of one cell: the effective connection list is the
template list followed by the mirrored connections staged for this cell. -/
def phase2Cell (conns : List Connection) (mirrors : List MirrorEntry)
    (c : Cell3) (st : BuildState) : BuildState :=
  let effective := conns ++ (mirrors.filter (fun m => decide (m.origin_cell = c))).map
    (fun m => m.connection)
  effective.foldl (resolveConn c) st

/-- Fold of phase2Cell over the replication grid, lines 128 to 142. -/
def phase2 (conns : List Connection) (mirrors : List MirrorEntry) :
    List Cell3 → BuildState → BuildState
  | [], st => st
  | c :: rest, st => phase2 conns mirrors rest (phase2Cell conns mirrors c st)

/-- Phases 1 and 2 of build_lists: the state reached after edge resolution
and before pruning and chain discretisation. -/
def buildPhase12 (pts : List Point) (conns : List Connection) (dims : Vec3)
    (size : ℕ × ℕ × ℕ) (dangling symmetric : Bool) : Except String BuildState := do
  let p1 ← phase1 pts conns dims size dangling symmetric
  pure (phase2 conns p1.mirrors (cellList size) p1.bs)

/-- Inner scan of prune_vectors, lines 184 to 190 of Lattice.py: iterate
over the live vector list by index, removing every pair that references the
dangler and decrementing the degree of the atom on the other end. Python
list removal inside iteration advances past the element that slides into the
freed slot, which the index bookkeeping reproduces. A removal of a pair that
is no longer present raises ValueError in Python, modelled as the error
case. The fuel starts at the list length, which bounds the iteration count
because the index grows by one per step and the list never grows. -/
def scanGo (d : ℕ) : ℕ → ℕ → List (ℕ × ℕ) → List Atom →
    Except String (List (ℕ × ℕ) × List Atom)
  | 0, _, vl, hp => .ok (vl, hp)
  | fuel + 1, i, vl, hp =>
    if h : i < vl.length then
      let c := vl[i]
      let vl1 := if c.1 = d then vl.erase c else vl
      let hp1 := if c.1 = d then bumpDeg hp c.2 (-1) else hp
      if c.2 = d then
        if c ∈ vl1 then scanGo d fuel (i + 1) (vl1.erase c) (bumpDeg hp1 c.1 (-1))
        else .error "ValueError"
      else scanGo d fuel (i + 1) vl1 hp1
    else .ok (vl, hp)

/-- Outer loop of prune_vectors, lines 180 to 191: find the first atom of
degree one, scan the vector list for its pairs, then remove the atom. The
fuel starts at the atom list length, which bounds the iteration count
because every iteration removes one atom from the list. -/
def pruneGo : ℕ → BuildState → Except String BuildState
  | 0, st => .ok st
  | fuel + 1, st =>
    match st.full_atom_list.find? (fun id => decide (degOf st.heap id = 1)) with
    | none => .ok st
    | some d =>
      match scanGo d st.vector_list.length 0 st.vector_list st.heap with
      | .error e => .error e
      | .ok (vl2, hp2) =>
        pruneGo fuel { st with heap := hp2, vector_list := vl2,
                               full_atom_list := st.full_atom_list.erase d }

/-- Method prune_vectors of Lattice.py. -/
def pruneVectors (st : BuildState) : Except String BuildState :=
  pruneGo st.full_atom_list.length st

/-- States visited by the pruning loop, in order: the initial state and the
state after each iteration, up to and including the terminal state. -/
def pruneTraceGo : ℕ → BuildState → List BuildState
  | 0, st => [st]
  | fuel + 1, st =>
    st :: (match st.full_atom_list.find? (fun id => decide (degOf st.heap id = 1)) with
    | none => []
    | some d =>
      match scanGo d st.vector_list.length 0 st.vector_list st.heap with
      | .error _ => []
      | .ok (vl2, hp2) =>
        pruneTraceGo fuel { st with heap := hp2, vector_list := vl2,
                                    full_atom_list := st.full_atom_list.erase d })

/-- Trace of the pruning loop started on a state. -/
def pruneTrace (st : BuildState) : List BuildState :=
  pruneTraceGo st.full_atom_list.length st

/-- Method build_lists of Lattice.py, taking the already scaled points and
dimensions held by the Lattice instance. -/
def buildListsCore (pts : List Point) (conns : List Connection) (dims : Vec3)
    (size : ℕ × ℕ × ℕ) (dangling symmetric prune : Bool) : Except String BuildState := do
  let st ← buildPhase12 pts conns dims size dangling symmetric
  let st2 ← if prune then pruneVectors st else pure st
  pure (populateAll st2)

/-- Scaling applied to the template points by the Lattice constructor, lines
57 to 59 of Lattice.py. The Python loop reassigns coords on the Point
objects owned by the Cell, mutating the template in place. -/
def scalePoints (pts : List Point) (scale : ℚ) : List Point :=
  pts.map (fun q => { q with coords := smul3 scale q.coords })

/-- Constructor of class Lattice. The returned pair is the final build state
together with the Cell as it stands after construction; returning the cell
makes the in place mutation of the shared Point objects observable. -/
def latticeInit (cell : Cell) (size : ℕ × ℕ × ℕ) (scale : ℚ)
    (dangling symmetric prune : Bool) : Except String (BuildState × Cell) := do
  let pts := scalePoints cell.points scale
  let cellAfter : Cell := { cell with points := pts }
  let dims := smul3 scale cell.dims
  let st ← buildListsCore pts cell.connections dims size dangling symmetric prune
  pure (st, cellAfter)

/-- Constructor of class Cell. The template argument models the path
parameter: none when no template is passed; some none when a path is passed
but os.path.exists is false, in which case import_cell only prints a warning
and leaves the points, connections and dims attributes unset, so the bounds
check loop of the constructor raises AttributeError reading self.points,
modelled as the error case; some of some g when the path exists and the
pickle holds the triple g. The bounds check loop itself only prints
warnings. -/
def cellNew (point_list : Option (List Point)) (connection_list : Option (List Connection))
    (dimensions : Vec3) (template : Option (Option (List Point × List Connection × Vec3))) :
    Except String Cell :=
  match template with
  | none => .ok { points := point_list.getD [], connections := connection_list.getD [],
                  dims := dimensions }
  | some (some g) => .ok { points := g.1, connections := g.2.1, dims := g.2.2 }
  | some none => .error "AttributeError"

/-- Structured content of the LAMMPS data file, keeping the numeric fields
that the writer serialises. -/
structure DataFile where
  natoms : ℕ
  nbonds : ℕ
  boxmin : Vec3
  boxmax : Vec3
  atomRows : List (ℕ × ℕ × Vec3)
  bondRows : List (ℕ × ℕ × ℕ)
deriving DecidableEq, Repr

/-- Model of the builtin max over a generator: ValueError on an empty
sequence. -/
def maxErr : List ℚ → Except String ℚ
  | [] => .error "ValueError: max arg is an empty sequence"
  | x :: xs => .ok (xs.foldl max x)

/-- Model of the builtin min over a generator: ValueError on an empty
sequence. -/
def minErr : List ℚ → Except String ℚ
  | [] => .error "ValueError: max arg is an empty sequence"
  | x :: xs => .ok (xs.foldl min x)

/-- Constructor of class LammpsDataWriter: compute the padded bounding box,
then assemble the serialised sections. The box computation runs first, so an
empty atom list fails there and nothing is written. An atom is of type 1
when its owning_cell is set, because every cell index triple is truthy in
Python, and of type 2 otherwise. -/
def lammpsDataWriter (st : BuildState) : Except String DataFile := do
  let atoms := st.full_atom_list.map (fun id => (id, atomAt st.heap id))
  let mx1 ← maxErr (atoms.map (fun a => a.2.position.1 + 1))
  let mn1 ← minErr (atoms.map (fun a => a.2.position.1 - 1))
  let mx2 ← maxErr (atoms.map (fun a => a.2.position.2.1 + 1))
  let mn2 ← minErr (atoms.map (fun a => a.2.position.2.1 - 1))
  let mx3 ← maxErr (atoms.map (fun a => a.2.position.2.2 + 1))
  let mn3 ← minErr (atoms.map (fun a => a.2.position.2.2 - 1))
  pure { natoms := atoms.length, nbonds := st.full_bond_list.length,
         boxmin := (mn1, mn2, mn3), boxmax := (mx1, mx2, mx3),
         atomRows := atoms.map (fun a =>
           (a.1, if a.2.owning_cell.isSome then 1 else 2, a.2.position)),
         bondRows := st.full_bond_list.map (fun b => (b.bond_id, b.point1, b.point2)) }

/-- Pair of output lists of a build, the observable result consumed by the
writer. -/
def outputsOf (st : BuildState) : List Atom × List Bond :=
  (st.full_atom_list.map (atomAt st.heap), st.full_bond_list)

/-! Derived definitions used by the theorems: recursive companions of the
populate loop that list what one call appends to each field, plus the
predicates the invariant theorems speak about. -/

/-- Atoms appended by the populate loop from index i with the given fuel. -/
def popAtoms (opos step : Vec3) (vl : ℕ) : ℕ → ℕ → List Atom
  | _, 0 => []
  | i, fuel + 1 =>
    (if i < vl - 1 then [fillerAtom (add3 opos (smul3 ((i : ℚ) + 1) step))] else [])
      ++ popAtoms opos step vl (i + 1) fuel

/-- Ids appended to the full atom list by the populate loop, given the heap
length H at entry. -/
def popIds (vl : ℕ) : ℕ → ℕ → ℕ → List ℕ
  | _, _, 0 => []
  | H, i, fuel + 1 =>
    (if i < vl - 1 then [H + 1] else [])
      ++ popIds vl (if i < vl - 1 then H + 1 else H) (i + 1) fuel

/-- Bonds appended by the populate loop, given heap length H, bond count bc
and the id of the last created filler at entry. -/
def popBonds (origin partner : ℕ) (vl : ℕ) : ℕ → ℕ → ℕ → ℕ → ℕ → List Bond
  | _, 0, _, _, _ => []
  | i, fuel + 1, H, bc, lastId =>
    let createNew := i < vl - 1
    let H1 := if createNew then H + 1 else H
    let lastId1 := if createNew then H + 1 else lastId
    { bond_id := bc + 1,
      point1 := if createNew then H + 1 else partner,
      point2 := if i = 0 then origin
                else if createNew then lastId1 - 1
                else lastId1 } ::
      popBonds origin partner vl (i + 1) fuel H1 (bc + 1) lastId1

/-- List of the ids 1 to n, the contents of the full atom list while no atom
has been removed. -/
def idList (n : ℕ) : List ℕ := (List.range n).map (· + 1)

/-- Number of references to the atom id d in the vector list, counting an
occurrence as origin and an occurrence as partner separately. -/
def refCount (d : ℕ) (vl : List (ℕ × ℕ)) : ℕ :=
  vl.countP (fun pr => decide (pr.1 = d)) + vl.countP (fun pr => decide (pr.2 = d))

/-- The degree counter of every listed atom equals the number of vector
pairs referencing it. -/
def DegInv (st : BuildState) : Prop :=
  ∀ id ∈ st.full_atom_list, (atomAt st.heap id).bonds = (refCount id st.vector_list : ℤ)

/-- Well formed build state: the listed ids are distinct and valid, vector
pairs reference listed atoms, degrees agree with reference counts, and no
degree is negative. -/
def WFState (st : BuildState) : Prop :=
  st.full_atom_list.Nodup ∧
  (∀ id ∈ st.full_atom_list, 1 ≤ id ∧ id ≤ st.heap.length) ∧
  (∀ pr ∈ st.vector_list, pr.1 ∈ st.full_atom_list ∧ pr.2 ∈ st.full_atom_list) ∧
  DegInv st ∧
  (∀ a ∈ st.heap, 0 ≤ a.bonds)

/-- Sum of the degree counters over the full atom list. -/
def degSum (st : BuildState) : ℤ :=
  (st.full_atom_list.map (fun id => (atomAt st.heap id).bonds)).sum

/-- Projection of an atom to the pair the phase 1 deduplication inspects. -/
def projOf (a : Atom) : Option ℤ × Option Cell3 := (a.point_type, a.owning_cell)

/-- Number of listed atoms whose owning cell has the given x index. -/
def faceCount (bs : BuildState) (k : ℤ) : ℕ :=
  bs.full_atom_list.countP (fun id =>
    decide ((atomAt bs.heap id).owning_cell.map (fun c => c.1) = some k))

/-- Concrete state used to exercise chain discretisation: two bonded atoms
at distance two along the x axis. -/
def c1cexSt : BuildState :=
  { heap := [{ position := (0, 0, 0), point_type := some 1, owning_cell := some (0, 0, 0),
               bonds := 1 },
             { position := (2, 0, 0), point_type := some 2, owning_cell := some (0, 0, 0),
               bonds := 1 }],
    full_atom_list := [1, 2], vector_list := [(1, 2)], full_bond_list := [], bond_count := 0 }

/-- Grid atom instantiated for a template point in a cell, the Atom built
on lines 93 and 94 of Lattice.py. -/
def gridAtomOf (dims : Vec3) (c : Cell3) (q : Point) : Atom :=
  { position := add3 (cellOrigin c dims) q.coords,
    point_type := some q.point_id, owning_cell := some c, bonds := 0 }

/-- Concrete cell used for the template mutation claim: one point with
nonzero coordinates. -/
def c6cell : Cell :=
  { points := [{ point_id := 1, coords := (1, 0, 0) }], connections := [], dims := (1, 1, 1) }

/-- The empty build state. -/
def emptyBS : BuildState :=
  { heap := [], full_atom_list := [], vector_list := [], full_bond_list := [],
    bond_count := 0 }

/-- Invariant of the build state during phase 1: the full atom list is the
ids one to heap length in order, no vectors or bonds exist yet, and every
degree counter is zero. -/
def P1Plain (bs : BuildState) : Prop :=
  bs.full_atom_list = idList bs.heap.length ∧ bs.vector_list = [] ∧
  bs.full_bond_list = [] ∧ bs.bond_count = 0 ∧ ∀ a ∈ bs.heap, a.bonds = 0

/-- One point template for small witnesses. -/
def onePointT : List Point := [{ point_id := 1, coords := (0, 0, 0) }]

/-- Projections of the heap atoms, in creation order: what the phase 1
deduplication scans can observe. -/
def p1Proj (bs : BuildState) : List (Option ℤ × Option Cell3) :=
  bs.heap.map projOf

/-- Expected heap projection of phase 1 for a template with the single
connection from o to p crossing (1, 0, 0), with dangling and symmetric
enabled, after processing the given cells of an nx wide grid: per cell, the
grid atoms, then the boundary partner atom beyond the positive x face when
the cell is the last x layer, then the mirrored origin atom before the
negative x face when the cell is the first x layer. -/
def c7Expected (pts : List Point) (o p : ℤ) (nx : ℕ) (cs : List Cell3) :
    List (Option ℤ × Option Cell3) :=
  cs.flatMap (fun c =>
    pts.map (fun q => (some q.point_id, some c)) ++
    (if c.1 = (nx : ℤ) - 1 then [(some p, some (cellAdd c (1, 0, 0)))] else []) ++
    (if c.1 = 0 then [(some o, some (cellSub c (1, 0, 0)))] else []))

/-- The single template connection of the symmetric mirroring scenario:
origin o to partner p, crossing one cell in the positive x direction. -/
def c7conn (o p : ℤ) : Connection :=
  { origin := o, partner := p, cell_crossings := (1, 0, 0) }

/-- The boundary atom created on lines 105 to 107 of Lattice.py for the
connection crossing (1, 0, 0): partner point type, owning cell one step
beyond the positive x face. -/
def c7TargetAtom (dims : Vec3) (c : Cell3) (p : ℤ) (pc : Vec3) : Atom :=
  { position := add3 (cellOrigin (cellAdd c (1, 0, 0)) dims) pc,
    point_type := some p, owning_cell := some (cellAdd c (1, 0, 0)), bonds := 0 }

/-- The mirrored boundary atom created on lines 118 to 121 of Lattice.py for
the connection crossing (1, 0, 0): origin point type, owning cell one step
before the negative x face. -/
def c7MirrorAtom (dims : Vec3) (c : Cell3) (o : ℤ) (oc : Vec3) : Atom :=
  { position := add3 (cellOrigin (cellSub c (1, 0, 0)) dims) oc,
    point_type := some o, owning_cell := some (cellSub c (1, 0, 0)), bonds := 0 }

/-- The mirrored bond entry staged on lines 122 to 126 of Lattice.py for the
connection from o to p crossing (1, 0, 0). -/
def c7MirrorEntry (o p : ℤ) (c : Cell3) : MirrorEntry :=
  { connection := { origin := p, partner := o, cell_crossings := cellNeg (1, 0, 0) },
    origin_cell := c }

/-- Two point template used for the prune flag claim: two points one unit
apart along the x axis. -/
def c4pts : List Point :=
  [{ point_id := 1, coords := (0, 0, 0) }, { point_id := 2, coords := (1, 0, 0) }]

/-- The intra cell connection of the prune flag template, from point 1 to
point 2 with no cell crossing. -/
def c4conn : Connection := { origin := 1, partner := 2, cell_crossings := (0, 0, 0) }

/-! Theorems. -/

theorem atomAt_append_of_le (hp l : List Atom) (id : ℕ) (h1 : 1 ≤ id) (h2 : id ≤ hp.length) :
    atomAt (hp ++ l) id = atomAt hp id := by
  unfold atomAt
  have hlt : id - 1 < hp.length := by omega
  simp [List.getD, List.getElem?_append_left hlt]

theorem atomAt_append_last (hp : List Atom) (a : Atom) :
    atomAt (hp ++ [a]) (hp.length + 1) = a := by
  unfold atomAt
  simp [List.getD]

theorem popLoop_proj (origin partner : ℕ) (opos step : Vec3) (vl : ℕ) (fuel : ℕ) :
    ∀ (i lastId : ℕ) (st : BuildState),
    popLoop origin partner opos step vl i fuel lastId st =
      { heap := st.heap ++ popAtoms opos step vl i fuel,
        full_atom_list := st.full_atom_list ++ popIds vl st.heap.length i fuel,
        vector_list := st.vector_list,
        full_bond_list := st.full_bond_list ++
          popBonds origin partner vl i fuel st.heap.length st.bond_count lastId,
        bond_count := st.bond_count + fuel } := by
  induction fuel with
  | zero =>
    intro i lastId st
    simp [popLoop, popAtoms, popIds, popBonds]
  | succ fuel ih =>
    intro i lastId st
    simp only [popLoop]
    by_cases hc : i < vl - 1
    · simp only [hc, if_true]
      rw [ih (i + 1) (st.heap.length + 1)]
      simp [popAtoms, popIds, popBonds, hc, pushAtom, pushBond, List.append_assoc]
      omega
    · simp only [hc, if_false]
      rw [ih (i + 1) lastId]
      simp [popAtoms, popIds, popBonds, hc, pushAtom, pushBond, List.append_assoc]
      omega

theorem popBonds_length (origin partner vl : ℕ) (fuel : ℕ) :
    ∀ i H bc lastId, (popBonds origin partner vl i fuel H bc lastId).length = fuel := by
  induction fuel with
  | zero => intro i H bc lastId; simp [popBonds]
  | succ fuel ih =>
    intro i H bc lastId
    simp only [popBonds, List.length_cons]
    rw [ih]

theorem popAtoms_eq (opos step : Vec3) (vl fuel : ℕ) :
    ∀ i, i + fuel = vl →
    popAtoms opos step vl i fuel = (List.range (fuel - 1)).map
      (fun k => fillerAtom (add3 opos (smul3 (((i + k : ℕ) : ℚ) + 1) step))) := by
  induction fuel with
  | zero => intro i h; simp [popAtoms]
  | succ fuel ih =>
    intro i h
    by_cases hc : i < vl - 1
    · have hf1 : 1 ≤ fuel := by omega
      obtain ⟨f2, rfl⟩ : ∃ f2, fuel = f2 + 1 := ⟨fuel - 1, by omega⟩
      rw [show popAtoms opos step vl i (f2 + 1 + 1) =
        (if i < vl - 1 then [fillerAtom (add3 opos (smul3 ((i : ℚ) + 1) step))] else []) ++
          popAtoms opos step vl (i + 1) (f2 + 1) from rfl]
      rw [ih (i + 1) (by omega)]
      simp only [hc, if_true, List.singleton_append, Nat.add_sub_cancel]
      rw [show List.range (f2 + 1) = 0 :: (List.range f2).map (· + 1) from
        List.range_succ_eq_map _, List.map_cons, List.map_map, List.cons.injEq]
      constructor
      · norm_num
      · apply List.map_congr_left
        intro k _
        simp only [Function.comp_apply]
        rw [show i + 1 + k = i + (k + 1) from by omega]
    · have hfuel0 : fuel = 0 := by omega
      subst hfuel0
      simp [popAtoms, hc]

theorem popBonds_head (origin partner vl : ℕ) (fuel H bc lastId : ℕ) (h : 1 ≤ fuel) :
    (popBonds origin partner vl 0 fuel H bc lastId).head?.map Bond.point2 = some origin := by
  obtain ⟨f2, rfl⟩ : ∃ f2, fuel = f2 + 1 := ⟨fuel - 1, by omega⟩
  simp [popBonds]

theorem popBonds_getElem_last (origin partner vl : ℕ) (fuel : ℕ) :
    ∀ i H bc lastId, i + (fuel + 1) = vl →
    ((popBonds origin partner vl i (fuel + 1) H bc lastId)[fuel]?).map Bond.point1 =
      some partner := by
  induction fuel with
  | zero =>
    intro i H bc lastId h
    have hc : ¬ (i < vl - 1) := by omega
    simp [popBonds, hc]
  | succ fuel ih =>
    intro i H bc lastId h
    rw [show popBonds origin partner vl i (fuel + 1 + 1) H bc lastId =
      (let createNew := i < vl - 1
       let H1 := if createNew then H + 1 else H
       let lastId1 := if createNew then H + 1 else lastId
       { bond_id := bc + 1,
         point1 := if createNew then H + 1 else partner,
         point2 := if i = 0 then origin
                   else if createNew then lastId1 - 1
                   else lastId1 } ::
         popBonds origin partner vl (i + 1) (fuel + 1) H1 (bc + 1) lastId1) from rfl]
    simp only [List.getElem?_cons_succ]
    exact ih (i + 1) _ _ _ (by omega)

theorem float_safety_cast_pos : (0 : ℝ) < ((float_safety : ℚ) : ℝ) := by
  rw [float_safety]
  push_cast
  norm_num

theorem float_safety_cast_le_one : ((float_safety : ℚ) : ℝ) ≤ 1 := by
  rw [float_safety]
  push_cast
  norm_num

/-- On any nonnegative length L whose square is the rational s, the integer
computed by vectorLengthQ followed by the clamp to at least one equals the
specification value: the maximum of one and the floor of L plus the safety
epsilon. This identifies the exact rational computation of the embedding
with the float expression of line 155 of Lattice.py read over the reals. -/
theorem vectorLengthQ_spec (s : ℚ) (L : ℝ) (h0 : 0 ≤ L) (hs : L ^ 2 = (s : ℝ)) :
    ((if vectorLengthQ s < 1 then 1 else vectorLengthQ s : ℕ) : ℤ) =
      max 1 ⌊L + ((float_safety : ℚ) : ℝ)⌋ := by
  set ε : ℝ := ((float_safety : ℚ) : ℝ) with hεdef
  have hε : (0 : ℝ) < ε := float_safety_cast_pos
  have hε1 : ε ≤ 1 := float_safety_cast_le_one
  have hs0 : (0 : ℚ) ≤ s := by
    have : (0 : ℝ) ≤ (s : ℝ) := by rw [← hs]; positivity
    exact_mod_cast this
  have hP : ∀ n : ℕ, lenPred s n ↔ ((n : ℝ) ≤ L + ε) := by
    intro n
    constructor
    · rintro (rfl | hle)
      · simp
        positivity
      · have hle2 : (((n : ℚ) - float_safety) ^ 2 : ℝ) ≤ (s : ℝ) := by exact_mod_cast hle
        have hle3 : ((n : ℝ) - ε) ^ 2 ≤ L ^ 2 := by
          rw [hs]
          calc ((n : ℝ) - ε) ^ 2 = (((n : ℚ) - float_safety) ^ 2 : ℝ) := by push_cast; ring
          _ ≤ (s : ℝ) := hle2
        nlinarith [hle3, h0]
    · intro hle
      by_cases hn0 : n = 0
      · exact Or.inl hn0
      · right
        have hn1 : (1 : ℝ) ≤ (n : ℝ) := by
          have : 1 ≤ n := by omega
          exact_mod_cast this
        have hgoal : ((n : ℝ) - ε) ^ 2 ≤ L ^ 2 := by nlinarith
        rw [hs] at hgoal
        have : (((n : ℚ) - float_safety) ^ 2 : ℝ) ≤ (s : ℝ) := by
          calc (((n : ℚ) - float_safety) ^ 2 : ℝ) = ((n : ℝ) - ε) ^ 2 := by push_cast; ring
          _ ≤ (s : ℝ) := hgoal
        exact_mod_cast this
  set m : ℤ := ⌊L + ε⌋ with hm
  have hm0 : 0 ≤ m := by
    rw [hm]
    apply Int.floor_nonneg.mpr
    positivity
  have hfloorle : ((m.toNat : ℕ) : ℝ) ≤ L + ε := by
    have h1 : ((m : ℤ) : ℝ) ≤ L + ε := Int.floor_le _
    have h2 : ((m.toNat : ℕ) : ℝ) = ((m : ℤ) : ℝ) := by
      rw [show ((m.toNat : ℕ) : ℝ) = ((m.toNat : ℤ) : ℝ) from by push_cast; ring]
      rw [Int.toNat_of_nonneg hm0]
    rw [h2]
    exact h1
  have hLbound : L + ε ≤ ((sqrtBound s : ℕ) : ℝ) := by
    have hceilNN : (0 : ℤ) ≤ Int.ceil s := Int.ceil_nonneg hs0
    have htn : (((Int.ceil s).toNat : ℕ) : ℝ) = ((Int.ceil s : ℤ) : ℝ) := by
      rw [show (((Int.ceil s).toNat : ℕ) : ℝ) = (((Int.ceil s).toNat : ℤ) : ℝ) from by
        push_cast; ring]
      rw [Int.toNat_of_nonneg hceilNN]
    have hsle : (s : ℝ) ≤ (((Int.ceil s).toNat : ℕ) : ℝ) := by
      rw [htn]
      exact_mod_cast Int.le_ceil s
    rw [show ((sqrtBound s : ℕ) : ℝ) = (((Int.ceil s).toNat : ℕ) : ℝ) + 1 from by
      rw [sqrtBound]; push_cast; ring]
    by_cases hL1 : L ≤ 1
    · by_cases hspos : (0 : ℚ) < s
      · have hc1 : (0 : ℤ) < Int.ceil s := Int.ceil_pos.mpr (by exact_mod_cast hspos)
        have h3 : (1 : ℝ) ≤ (((Int.ceil s).toNat : ℕ) : ℝ) := by
          have h4 : (1 : ℕ) ≤ (Int.ceil s).toNat := by omega
          exact_mod_cast h4
        linarith
      · have hseq : s = 0 := le_antisymm (not_lt.mp hspos) hs0
        have hL0 : L = 0 := by
          have hsq : L ^ 2 = 0 := by rw [hs, hseq]; norm_num
          nlinarith
        rw [hL0]
        have h5 : (0 : ℝ) ≤ (((Int.ceil s).toNat : ℕ) : ℝ) := by positivity
        linarith
    · push_neg at hL1
      have hLs : L ≤ (s : ℝ) := by nlinarith
      linarith
  have hfg : vectorLengthQ s = m.toNat := by
    rw [vectorLengthQ]
    apply Nat.findGreatest_eq_iff.mpr
    refine ⟨?_, ?_, ?_⟩
    · have : ((m.toNat : ℕ) : ℝ) ≤ ((sqrtBound s : ℕ) : ℝ) := le_trans hfloorle hLbound
      exact_mod_cast this
    · intro _
      exact (hP m.toNat).mpr hfloorle
    · intro n hgt _ hpred
      have h1 : ((n : ℕ) : ℝ) ≤ L + ε := (hP n).mp hpred
      have h2 : ((n : ℕ) : ℤ) ≤ m := by
        rw [hm]
        apply Int.le_floor.mpr
        exact_mod_cast h1
      omega
  rw [hfg]
  split_ifs with hcond <;> omega

theorem vectorLengthQ_four : vectorLengthQ 4 = 2 := by
  rw [vectorLengthQ, show sqrtBound 4 = 5 from by norm_num [sqrtBound, Int.toNat]]
  norm_num [Nat.findGreatest, lenPred, float_safety]

/-- Claim C1, counterexample: on the pair of atoms of c1cexSt, at distance
two, the code emits the bonds with endpoint pairs point1 and point2 equal to
3 and 1 then 2 and 3: the first emitted sub-bond has first endpoint 3, the
new filler atom, not the origin atom id 1, and the last emitted sub-bond has
second endpoint 3, not the partner atom id 2. This falsifies the endpoint
clause of the claim at this input. -/
theorem c1_counterexample :
    ((populateVector c1cexSt (1, 2)).full_bond_list.map (fun b => (b.point1, b.point2)) =
      [(3, 1), (2, 3)]) ∧
    ¬ (((populateVector c1cexSt (1, 2)).full_bond_list.head?.map Bond.point1 = some 1) ∧
       ((populateVector c1cexSt (1, 2)).full_bond_list.getLast?.map Bond.point2 = some 2)) := by
  have hlist : (populateVector c1cexSt (1, 2)).full_bond_list =
      [{ bond_id := 1, point1 := 3, point2 := 1 }, { bond_id := 2, point1 := 2, point2 := 3 }] := by
    norm_num [populateVector, popLoop, pushAtom, pushBond, fillerAtom, atomAt, List.getD,
      sub3, sqNorm3, divScal3, add3, smul3, c1cexSt, vectorLengthQ_four]
  rw [hlist]
  simp

/-- Claim C1, amended: for every vector pair whose origin and partner
positions are at Euclidean distance L, with n the specified count, the
maximum of 1 and the floor of L plus the safety epsilon, populate_vector
emits exactly n bond records, inserts exactly n - 1 filler atoms evenly
spaced along the displacement, and the first emitted sub-bond has SECOND
endpoint equal to the origin atom id while the last emitted sub-bond has
FIRST endpoint equal to the partner atom id; the claim had the two endpoint
roles swapped. -/
theorem c1_chain_discretization (st : BuildState) (o p : ℕ) (L : ℝ) (n : ℕ)
    (hL0 : 0 ≤ L)
    (hL : L ^ 2 = ((sqNorm3 (sub3 (atomAt st.heap p).position
      (atomAt st.heap o).position) : ℚ) : ℝ))
    (hn : (n : ℤ) = max 1 ⌊L + ((float_safety : ℚ) : ℝ)⌋) :
    (populateVector st (o, p)).full_bond_list.length = st.full_bond_list.length + n ∧
    (populateVector st (o, p)).heap = st.heap ++ (List.range (n - 1)).map (fun k =>
      fillerAtom (add3 (atomAt st.heap o).position
        (smul3 (((k : ℕ) : ℚ) + 1)
          (divScal3 (sub3 (atomAt st.heap p).position (atomAt st.heap o).position)
            (n : ℚ))))) ∧
    ((populateVector st (o, p)).full_bond_list.drop st.full_bond_list.length).head?.map
      Bond.point2 = some o ∧
    (((populateVector st (o, p)).full_bond_list.drop st.full_bond_list.length)[n - 1]?).map
      Bond.point1 = some p := by
  have hvl : (if vectorLengthQ (sqNorm3 (sub3 (atomAt st.heap p).position
      (atomAt st.heap o).position)) < 1 then 1
      else vectorLengthQ (sqNorm3 (sub3 (atomAt st.heap p).position
        (atomAt st.heap o).position))) = n := by
    have h1 := vectorLengthQ_spec _ L hL0 hL
    omega
  have hn1 : 1 ≤ n := by
    have h2 := le_max_left 1 ⌊L + ((float_safety : ℚ) : ℝ)⌋
    omega
  have hunfold : populateVector st (o, p) =
      popLoop o p (atomAt st.heap o).position
        (divScal3 (sub3 (atomAt st.heap p).position (atomAt st.heap o).position) (n : ℚ))
        n 0 n 0 st := by
    rw [populateVector]
    simp only []
    rw [hvl]
  rw [hunfold, popLoop_proj]
  refine ⟨?_, ?_, ?_, ?_⟩
  · simp only [List.length_append, popBonds_length]
  · simp only []
    rw [popAtoms_eq _ _ _ _ 0 (by omega)]
    congr 1
    apply List.map_congr_left
    intro k _
    simp
  · simp only [List.drop_left]
    exact popBonds_head o p n n st.heap.length st.bond_count 0 hn1
  · simp only [List.drop_left]
    obtain ⟨f2, rfl⟩ : ∃ f2, n = f2 + 1 := ⟨n - 1, by omega⟩
    simp only [Nat.add_sub_cancel]
    exact popBonds_getElem_last o p (f2 + 1) f2 0 st.heap.length st.bond_count 0 (by omega)

/-- Claim C1, witness: the amended theorem applied to c1cexSt with distance
two and segment count two, the hypotheses checked on the concrete values. -/
theorem c1_chain_witness :
    ((0 : ℝ) ≤ 2) ∧
    ((2 : ℝ) ^ 2 = ((sqNorm3 (sub3 (atomAt c1cexSt.heap 2).position
      (atomAt c1cexSt.heap 1).position) : ℚ) : ℝ)) ∧
    (((2 : ℕ) : ℤ) = max 1 ⌊(2 : ℝ) + ((float_safety : ℚ) : ℝ)⌋) ∧
    (populateVector c1cexSt (1, 2)).full_bond_list.length =
      c1cexSt.full_bond_list.length + 2 := by
  have h1 : (0 : ℝ) ≤ 2 := by norm_num
  have hsq : (sqNorm3 (sub3 (atomAt c1cexSt.heap 2).position
      (atomAt c1cexSt.heap 1).position) : ℚ) = 4 := by
    norm_num [c1cexSt, atomAt, List.getD, sub3, sqNorm3]
  have h2 : (2 : ℝ) ^ 2 = ((sqNorm3 (sub3 (atomAt c1cexSt.heap 2).position
      (atomAt c1cexSt.heap 1).position) : ℚ) : ℝ) := by
    rw [hsq]
    norm_num
  have hf : ⌊(2 : ℝ) + ((float_safety : ℚ) : ℝ)⌋ = 2 := by
    apply Int.floor_eq_iff.mpr
    rw [float_safety]
    push_cast
    constructor <;> norm_num
  have h3 : ((2 : ℕ) : ℤ) = max 1 ⌊(2 : ℝ) + ((float_safety : ℚ) : ℝ)⌋ := by
    rw [hf]
    norm_num
  exact ⟨h1, h2, h3, (c1_chain_discretization c1cexSt 1 2 2 2 h1 h2 h3).1⟩

/-- Claim C5: constructing a Cell from a template path that does not exist
does not complete with an empty template; the import helper prints its
warning without assigning the points, connections and dims attributes, and
the bounds check loop of the constructor then raises AttributeError reading
self.points, so construction fails hard. The claim and the spec describe
the evidently intended non fatal behaviour, which the code does not
implement: a code bug. -/
theorem c5_missing_template :
    cellNew none none (1, 1, 1) (some none) = .error "AttributeError" := rfl

/-- Claim C10: a writer invoked on a lattice state whose full atom list is
empty fails at the first bounding box maximum, before any section is
assembled and before the output file is opened. -/
theorem c10_empty_writer (st : BuildState) (h : st.full_atom_list = []) :
    lammpsDataWriter st = .error "ValueError: max arg is an empty sequence" := by
  rw [lammpsDataWriter, h]
  rfl

/-- Claim C10, witness: a build over the empty template yields the empty
state, and the writer fails on it as the theorem states. -/
theorem c10_empty_writer_witness :
    buildListsCore [] [] (1, 1, 1) (1, 1, 1) false true false = .ok emptyBS ∧
    lammpsDataWriter emptyBS = .error "ValueError: max arg is an empty sequence" := by
  constructor
  · rfl
  · exact c10_empty_writer emptyBS rfl

theorem scalePoints_one (pts : List Point) : scalePoints pts 1 = pts := by
  unfold scalePoints
  have h : ∀ q : Point, ({ q with coords := smul3 1 q.coords } : Point) = q := by
    intro q
    simp [smul3]
  simp [h]

/-- Claim C6, amended: constructing a Lattice leaves the connections and the
dimensions of the Cell unchanged, but multiplies every point coordinate of
the Cell in place by the scale factor; the point coordinates are therefore
preserved exactly when the scale factor is one, and the claim fails for any
non unit scale on a point with a nonzero coordinate. -/
theorem c6_template_mutation (cell : Cell) (size : ℕ × ℕ × ℕ) (scale : ℚ)
    (dangling symmetric prune : Bool) (st : BuildState) (cellAfter : Cell)
    (h : latticeInit cell size scale dangling symmetric prune = .ok (st, cellAfter)) :
    cellAfter.dims = cell.dims ∧ cellAfter.connections = cell.connections ∧
    cellAfter.points = scalePoints cell.points scale ∧
    (scale = 1 → cellAfter = cell) := by
  rw [latticeInit] at h
  cases hb : buildListsCore (scalePoints cell.points scale) cell.connections
      (smul3 scale cell.dims) size dangling symmetric prune with
  | error e =>
    rw [hb] at h
    simp [Bind.bind, Except.bind] at h
  | ok b =>
    rw [hb] at h
    simp only [Bind.bind, Except.bind, Pure.pure, Except.pure, Except.ok.injEq,
      Prod.mk.injEq] at h
    obtain ⟨hb2, hcell⟩ := h
    subst hcell
    refine ⟨rfl, rfl, rfl, ?_⟩
    intro h1
    subst h1
    rw [scalePoints_one]

/-- Claim C6, counterexample: building a Lattice from c6cell with scale two
succeeds and leaves the Cell with point coordinates (2, 0, 0), different
from the original (1, 0, 0): the Cell is not unchanged when a non unit
scale factor is supplied. -/
theorem c6_counterexample :
    (latticeInit c6cell (1, 1, 1) 2 false true false).map
      (fun r => r.2.points.map Point.coords) = .ok [((2 : ℚ), (0 : ℚ), (0 : ℚ))] ∧
    c6cell.points.map Point.coords = [((1 : ℚ), (0 : ℚ), (0 : ℚ))] ∧
    ((2 : ℚ), (0 : ℚ), (0 : ℚ)) ≠ ((1 : ℚ), (0 : ℚ), (0 : ℚ)) := by
  refine ⟨?_, by simp [c6cell], by norm_num⟩
  norm_num [latticeInit, buildListsCore, buildPhase12, phase1, phase1Go, phase1Cell,
    gridAtoms, cellList, p1Init, phase2, phase2Cell, resolveConn, populateAll,
    scalePoints, smul3, c6cell, Bind.bind, Except.bind, Pure.pure, Except.pure,
    pushAtom, add3, cellOrigin, Except.map]

/-- Claim C6, witness: the amended theorem applied to c6cell with scale two;
the build succeeds and the returned Cell carries the scaled points. -/
theorem c6_template_mutation_witness :
    ∃ st cellAfter,
      latticeInit c6cell (1, 1, 1) 2 false true false = .ok (st, cellAfter) ∧
      cellAfter.dims = c6cell.dims ∧ cellAfter.connections = c6cell.connections ∧
      cellAfter.points = scalePoints c6cell.points 2 := by
  have hrun : latticeInit c6cell (1, 1, 1) 2 false true false =
      .ok (populateAll (phase2 [] [] (cellList (1, 1, 1))
          (gridAtoms (scalePoints c6cell.points 2) (smul3 2 c6cell.dims) (0, 0, 0)
            emptyBS)),
        { c6cell with points := scalePoints c6cell.points 2 }) := by
    rfl
  refine ⟨_, _, hrun, ?_⟩
  have := c6_template_mutation c6cell (1, 1, 1) 2 false true false _ _ hrun
  exact ⟨this.1, this.2.1, this.2.2.1⟩

theorem except_bind_ok {α β : Type} (x : Except String α) (k : α → Except String β)
    (b : β) : x.bind k = .ok b ↔ ∃ a, x = .ok a ∧ k a = .ok b := by
  cases x with
  | error e => simp [Except.bind]
  | ok a => simp [Except.bind]

theorem bind_eq_except_bind {α β : Type} (x : Except String α) (k : α → Except String β) :
    x >>= k = x.bind k := rfl

theorem idList_succ (n : ℕ) : idList (n + 1) = idList n ++ [n + 1] := by
  unfold idList
  rw [List.range_succ]
  simp

theorem idList_length (n : ℕ) : (idList n).length = n := by
  simp [idList]

theorem mem_idList (n id : ℕ) : id ∈ idList n ↔ 1 ≤ id ∧ id ≤ n := by
  unfold idList
  simp only [List.mem_map, List.mem_range]
  constructor
  · rintro ⟨k, hk, rfl⟩
    omega
  · rintro ⟨h1, h2⟩
    exact ⟨id - 1, by omega, by omega⟩

theorem idList_nodup (n : ℕ) : (idList n).Nodup := by
  unfold idList
  exact List.Nodup.map (fun a b h => by omega) (List.nodup_range n)

theorem pushAtom_plain (bs : BuildState) (a : Atom) (ha : a.bonds = 0)
    (h : P1Plain bs) : P1Plain (pushAtom bs a) := by
  obtain ⟨h1, h2, h3, h4, h5⟩ := h
  refine ⟨?_, h2, h3, h4, ?_⟩
  · simp only [pushAtom, List.length_append, List.length_cons, List.length_nil]
    rw [h1, show bs.heap.length + (0 + 1) = bs.heap.length + 1 from by omega, idList_succ]
  · intro x hx
    simp only [pushAtom, List.mem_append, List.mem_cons, List.not_mem_nil, or_false] at hx
    rcases hx with hx | hx
    · exact h5 x hx
    · rw [hx]; exact ha

theorem gridAtoms_heap (pts : List Point) (dims : Vec3) (c : Cell3) :
    ∀ bs, (gridAtoms pts dims c bs).heap = bs.heap ++ pts.map (gridAtomOf dims c) := by
  induction pts with
  | nil => intro bs; simp [gridAtoms]
  | cons q pts ih =>
    intro bs
    simp only [gridAtoms, List.foldl_cons] at *
    rw [ih]
    simp [pushAtom, gridAtomOf, List.append_assoc]

theorem gridAtoms_fields (pts : List Point) (dims : Vec3) (c : Cell3) :
    ∀ bs, (gridAtoms pts dims c bs).vector_list = bs.vector_list ∧
      (gridAtoms pts dims c bs).full_bond_list = bs.full_bond_list ∧
      (gridAtoms pts dims c bs).bond_count = bs.bond_count := by
  induction pts with
  | nil => intro bs; simp [gridAtoms]
  | cons q pts ih =>
    intro bs
    simp only [gridAtoms, List.foldl_cons] at *
    exact ih _

theorem gridAtoms_plain (pts : List Point) (dims : Vec3) (c : Cell3) :
    ∀ bs, P1Plain bs → P1Plain (gridAtoms pts dims c bs) := by
  induction pts with
  | nil => intro bs h; simpa [gridAtoms] using h
  | cons q pts ih =>
    intro bs h
    simp only [gridAtoms, List.foldl_cons] at *
    exact ih _ (pushAtom_plain bs _ rfl h)

theorem phase1ConnTarget_plain (pts : List Point) (dims : Vec3) (cells : List Cell3)
    (c : Cell3) (conn : Connection) (st st1 : P1State)
    (h : phase1ConnTarget pts dims cells c conn st = .ok st1)
    (hp : P1Plain st.bs) : P1Plain st1.bs := by
  rw [phase1ConnTarget] at h
  by_cases ht : cellAdd c conn.cell_crossings ∈ cells
  · rw [if_pos ht] at h
    simp only [Pure.pure] at h
    cases h
    exact hp
  · rw [if_neg ht, bind_eq_except_bind, except_bind_ok] at h
    obtain ⟨pc, hpc, h⟩ := h
    by_cases he : existsAtom st.bs conn.partner (cellAdd c conn.cell_crossings) = true
    · simp only [he, if_true, Pure.pure] at h
      cases h
      exact hp
    · simp only [Bool.not_eq_true] at he
      simp only [he, Bool.false_eq_true, if_false, Pure.pure] at h
      cases h
      exact pushAtom_plain st.bs _ rfl hp

theorem phase1ConnSym_plain (pts : List Point) (dims : Vec3) (cells : List Cell3)
    (symmetric : Bool) (c : Cell3) (conn : Connection) (st1 st2 : P1State)
    (h : phase1ConnSym pts dims cells symmetric c conn st1 = .ok st2)
    (hp : P1Plain st1.bs) : P1Plain st2.bs := by
  rw [phase1ConnSym] at h
  by_cases hs : symmetric = true
  · rw [hs, if_pos rfl] at h
    by_cases hm : cellSub c conn.cell_crossings ∈ cells
    · rw [if_pos hm] at h
      simp only [Pure.pure] at h
      cases h
      exact hp
    · rw [if_neg hm, bind_eq_except_bind, except_bind_ok] at h
      obtain ⟨oc, hoc, h⟩ := h
      simp only [Pure.pure] at h
      cases h
      by_cases he2 : existsAtom st1.bs conn.origin (cellSub c conn.cell_crossings) = true
      · simp only [he2, if_true]
        exact hp
      · simp only [Bool.not_eq_true] at he2
        simp only [he2, Bool.false_eq_true, if_false]
        exact pushAtom_plain st1.bs _ rfl hp
  · simp only [Bool.not_eq_true] at hs
    rw [hs] at h
    simp only [Bool.false_eq_true, if_false, Pure.pure] at h
    cases h
    exact hp

theorem phase1Conn_plain (pts : List Point) (dims : Vec3) (cells : List Cell3)
    (symmetric : Bool) (c : Cell3) (st st2 : P1State) (conn : Connection)
    (h : phase1Conn pts dims cells symmetric c st conn = .ok st2)
    (hp : P1Plain st.bs) : P1Plain st2.bs := by
  rw [phase1Conn, bind_eq_except_bind, except_bind_ok] at h
  obtain ⟨st1, h1, h2⟩ := h
  exact phase1ConnSym_plain pts dims cells symmetric c conn st1 st2 h2
    (phase1ConnTarget_plain pts dims cells c conn st st1 h1 hp)

theorem phase1Conns_plain (pts : List Point) (dims : Vec3) (cells : List Cell3)
    (symmetric : Bool) (c : Cell3) :
    ∀ (conns : List Connection) (st st2 : P1State),
    phase1Conns pts dims cells symmetric c conns st = .ok st2 →
    P1Plain st.bs → P1Plain st2.bs := by
  intro conns
  induction conns with
  | nil =>
    intro st st2 h hp
    rw [phase1Conns] at h
    cases h
    exact hp
  | cons conn rest ih =>
    intro st st2 h hp
    rw [phase1Conns, bind_eq_except_bind, except_bind_ok] at h
    obtain ⟨st1, h1, h2⟩ := h
    exact ih st1 st2 h2 (phase1Conn_plain pts dims cells symmetric c st st1 conn h1 hp)

theorem phase1Cell_plain (pts : List Point) (conns : List Connection) (dims : Vec3)
    (cells : List Cell3) (dangling symmetric : Bool) (st st2 : P1State) (c : Cell3)
    (h : phase1Cell pts conns dims cells dangling symmetric st c = .ok st2)
    (hp : P1Plain st.bs) : P1Plain st2.bs := by
  rw [phase1Cell] at h
  by_cases hd : dangling = true
  · rw [hd, if_pos rfl] at h
    exact phase1Conns_plain pts dims cells symmetric c conns _ st2 h
      (gridAtoms_plain pts dims c st.bs hp)
  · simp only [Bool.not_eq_true] at hd
    rw [hd] at h
    simp only [Bool.false_eq_true, if_false] at h
    cases h
    exact gridAtoms_plain pts dims c st.bs hp

theorem phase1Go_plain (pts : List Point) (conns : List Connection) (dims : Vec3)
    (cells : List Cell3) (dangling symmetric : Bool) :
    ∀ (rest : List Cell3) (st st2 : P1State),
    phase1Go pts conns dims cells dangling symmetric rest st = .ok st2 →
    P1Plain st.bs → P1Plain st2.bs := by
  intro rest
  induction rest with
  | nil =>
    intro st st2 h hp
    rw [phase1Go] at h
    cases h
    exact hp
  | cons c rest ih =>
    intro st st2 h hp
    rw [phase1Go, bind_eq_except_bind, except_bind_ok] at h
    obtain ⟨st1, h1, h2⟩ := h
    exact ih st1 st2 h2 (phase1Cell_plain pts conns dims cells dangling symmetric st st1 c h1 hp)

theorem p1Init_plain : P1Plain p1Init.bs := by
  refine ⟨rfl, rfl, rfl, rfl, ?_⟩
  intro a ha
  simp [p1Init] at ha

theorem phase1_plain (pts : List Point) (conns : List Connection) (dims : Vec3)
    (size : ℕ × ℕ × ℕ) (dangling symmetric : Bool) (p1 : P1State)
    (h : phase1 pts conns dims size dangling symmetric = .ok p1) : P1Plain p1.bs :=
  phase1Go_plain pts conns dims (cellList size) dangling symmetric (cellList size)
    p1Init p1 h p1Init_plain

theorem length_flatMap_const {α β : Type} (l : List α) (f : α → List β) (k : ℕ)
    (h : ∀ a ∈ l, (f a).length = k) : (l.flatMap f).length = l.length * k := by
  induction l with
  | nil => simp
  | cons a l ih =>
    rw [List.flatMap_cons, List.length_append, h a (by simp),
      ih (fun b hb => h b (by simp [hb])), List.length_cons]
    ring

theorem cellList_length (nx ny nz : ℕ) : (cellList (nx, ny, nz)).length = nx * ny * nz := by
  unfold cellList
  rw [length_flatMap_const _ _ (ny * nz) ?inner, List.length_range, Nat.mul_assoc]
  case inner =>
    intro x _
    rw [length_flatMap_const _ _ nz ?i2, List.length_range]
    case i2 =>
      intro y _
      simp

theorem phase1Go_false (pts : List Point) (conns : List Connection) (dims : Vec3)
    (cells : List Cell3) (s : Bool) :
    ∀ (rest : List Cell3) (st : P1State), ∃ st2,
    phase1Go pts conns dims cells false s rest st = .ok st2 ∧
    st2.bs.heap = st.bs.heap ++ rest.flatMap (fun c => pts.map (gridAtomOf dims c)) ∧
    st2.mirrors = st.mirrors := by
  intro rest
  induction rest with
  | nil =>
    intro st
    exact ⟨st, rfl, by simp, rfl⟩
  | cons c rest ih =>
    intro st
    obtain ⟨st2, h1, h2, h3⟩ := ih { st with bs := gridAtoms pts dims c st.bs }
    refine ⟨st2, ?_, ?_, h3⟩
    · rw [phase1Go]
      rw [show phase1Cell pts conns dims cells false s st c =
        .ok { st with bs := gridAtoms pts dims c st.bs } from rfl]
      exact h1
    · rw [h2]
      simp only [gridAtoms_heap]
      rw [List.flatMap_cons, List.append_assoc]

/-- Claim C8: with dangling disabled, phase 1 produces one atom per template
point per cell of the replication grid, positioned at the cell origin plus
the point coordinates and tagged with the point id and the cell index, for
exactly nx times ny times nz times the number of template points atoms. -/
theorem c8_replication_count (pts : List Point) (conns : List Connection) (dims : Vec3)
    (nx ny nz : ℕ) (s : Bool) (h1 : 0 < nx) (h2 : 0 < ny) (h3 : 0 < nz) :
    ∃ p1, phase1 pts conns dims (nx, ny, nz) false s = .ok p1 ∧
      p1.bs.heap = (cellList (nx, ny, nz)).flatMap (fun c => pts.map (gridAtomOf dims c)) ∧
      p1.bs.heap.length = nx * ny * nz * pts.length := by
  obtain ⟨st2, hgo, hheap, hmir⟩ :=
    phase1Go_false pts conns dims (cellList (nx, ny, nz)) s (cellList (nx, ny, nz)) p1Init
  refine ⟨st2, hgo, by simpa [p1Init] using hheap, ?_⟩
  rw [hheap]
  simp only [p1Init, List.nil_append]
  rw [length_flatMap_const _ _ pts.length (fun c _ => by simp), cellList_length]

/-- Claim C8, witness: a one point template replicated over a single cell
gives exactly one atom with the stated position and tags. -/
theorem c8_replication_witness :
    ∃ p1, phase1 onePointT [] (1, 1, 1) (1, 1, 1) false true = .ok p1 ∧
      p1.bs.heap = (cellList (1, 1, 1)).flatMap (fun c =>
        onePointT.map (gridAtomOf (1, 1, 1) c)) ∧
      p1.bs.heap.length = 1 * 1 * 1 * onePointT.length :=
  c8_replication_count onePointT [] (1, 1, 1) 1 1 1 true (by norm_num) (by norm_num)
    (by norm_num)

theorem mem_cellList (nx ny nz : ℕ) (c : Cell3) :
    c ∈ cellList (nx, ny, nz) ↔
      0 ≤ c.1 ∧ c.1 < (nx : ℤ) ∧ 0 ≤ c.2.1 ∧ c.2.1 < (ny : ℤ) ∧
      0 ≤ c.2.2 ∧ c.2.2 < (nz : ℤ) := by
  unfold cellList
  simp only [List.mem_flatMap, List.mem_map, List.mem_range]
  constructor
  · rintro ⟨x, hx, y, hy, z, hz, rfl⟩
    simp
    omega
  · rintro ⟨h1, h2, h3, h4, h5, h6⟩
    refine ⟨c.1.toNat, by omega, c.2.1.toNat, by omega, c.2.2.toNat, by omega, ?_⟩
    obtain ⟨a, b, d⟩ := c
    simp only [Prod.mk.injEq]
    simp only [] at h1 h2 h3 h4 h5 h6
    refine ⟨Int.toNat_of_nonneg h1, Int.toNat_of_nonneg ?_, Int.toNat_of_nonneg ?_⟩
    · exact h3
    · exact h5

theorem cellList_nodup (nx ny nz : ℕ) : (cellList (nx, ny, nz)).Nodup := by
  unfold cellList
  apply List.nodup_flatMap.mpr
  constructor
  · intro x _
    apply List.nodup_flatMap.mpr
    constructor
    · intro y _
      refine List.Nodup.map ?_ (List.nodup_range nz)
      intro a b h
      simp only [Prod.mk.injEq] at h
      omega
    · apply List.Pairwise.imp ?_ (List.nodup_range ny)
      intro a b hne
      intro t hta htb
      simp only [List.mem_map, List.mem_range] at hta htb
      obtain ⟨z1, _, hz1⟩ := hta
      obtain ⟨z2, _, hz2⟩ := htb
      rw [← hz1] at hz2
      simp only [Prod.mk.injEq] at hz2
      omega
  · apply List.Pairwise.imp ?_ (List.nodup_range nx)
    intro a b hne
    intro t hta htb
    simp only [List.mem_flatMap, List.mem_map, List.mem_range] at hta htb
    obtain ⟨y1, _, z1, _, hz1⟩ := hta
    obtain ⟨y2, _, z2, _, hz2⟩ := htb
    rw [← hz1] at hz2
    simp only [Prod.mk.injEq] at hz2
    omega

theorem findCoords_ok (pts : List Point) (x : ℤ) (h : ∃ q ∈ pts, q.point_id = x) :
    ∃ v, findCoords pts x = .ok v := by
  rw [findCoords]
  obtain ⟨q, hq, hid⟩ := h
  have hfind : (pts.find? (fun q => decide (q.point_id = x))).isSome = true := by
    apply List.find?_isSome.mpr
    exact ⟨q, hq, by simp [hid]⟩
  cases hf : pts.find? (fun q => decide (q.point_id = x)) with
  | none => rw [hf] at hfind; simp at hfind
  | some q2 => exact ⟨q2.coords, rfl⟩

theorem atomAt_eq_getElem (hp : List Atom) (id : ℕ) (h1 : 1 ≤ id) (h2 : id ≤ hp.length) :
    ∃ hlt : id - 1 < hp.length, atomAt hp id = hp[id - 1] := by
  have hlt : id - 1 < hp.length := by omega
  refine ⟨hlt, ?_⟩
  unfold atomAt
  simp [List.getD, List.getElem?_eq_getElem hlt]

theorem existsAtom_iff (bs : BuildState) (pid : ℤ) (cellIdx : Cell3)
    (h : bs.full_atom_list = idList bs.heap.length) :
    existsAtom bs pid cellIdx = true ↔ (some pid, some cellIdx) ∈ p1Proj bs := by
  rw [existsAtom, h, List.any_eq_true]
  unfold p1Proj projOf
  constructor
  · rintro ⟨id, hid, hmatch⟩
    rw [mem_idList] at hid
    obtain ⟨hlt, hat⟩ := atomAt_eq_getElem bs.heap id hid.1 hid.2
    rw [projMatch] at hmatch
    simp only [decide_eq_true_eq] at hmatch
    apply List.mem_map.mpr
    refine ⟨bs.heap[id - 1], List.getElem_mem hlt, ?_⟩
    rw [← hat]
    simp [hmatch.1, hmatch.2]
  · intro hmem
    obtain ⟨a, ha, hproj⟩ := List.mem_map.mp hmem
    obtain ⟨i, hi, hgi⟩ := List.mem_iff_getElem.mp ha
    refine ⟨i + 1, ?_, ?_⟩
    · rw [mem_idList]
      omega
    · obtain ⟨hlt, hat⟩ := atomAt_eq_getElem bs.heap (i + 1) (by omega) (by omega)
      rw [projMatch]
      simp only [decide_eq_true_eq]
      rw [hat]
      simp only [Nat.add_sub_cancel]
      rw [hgi]
      simp only [Prod.mk.injEq] at hproj
      exact ⟨hproj.1, hproj.2⟩

theorem idList_countP (f : Atom → Bool) : ∀ (hp : List Atom),
    (idList hp.length).countP (fun id => f (atomAt hp id)) = hp.countP f := by
  intro hp
  induction hp using List.reverseRecOn with
  | nil => simp [idList]
  | append_singleton hp a ih =>
    rw [show (hp ++ [a]).length = hp.length + 1 from by simp, idList_succ,
      List.countP_append]
    have hcongr : (idList hp.length).countP (fun id => f (atomAt (hp ++ [a]) id)) =
        (idList hp.length).countP (fun id => f (atomAt hp id)) := by
      apply List.countP_congr
      intro id hid
      rw [mem_idList] at hid
      rw [atomAt_append_of_le hp [a] id hid.1 hid.2]
    rw [hcongr, ih, List.countP_append]
    simp [List.countP_cons, atomAt_append_last]

theorem countP_flatMap {α β : Type} (l : List α) (f : α → List β) (p : β → Bool) :
    (l.flatMap f).countP p = (l.map (fun a => (f a).countP p)).sum := by
  induction l with
  | nil => simp
  | cons a l ih => rw [List.flatMap_cons, List.countP_append, ih, List.map_cons, List.sum_cons]

theorem sum_map_range_ite (k : ℤ) (v : ℕ) :
    ∀ nx : ℕ, 0 ≤ k → k < (nx : ℤ) →
    ((List.range nx).map (fun x => if ((x : ℕ) : ℤ) = k then v else 0)).sum = v := by
  intro nx
  induction nx with
  | zero => intro h1 h2; omega
  | succ nx ih =>
    intro h1 h2
    rw [List.range_succ, List.map_append, List.sum_append]
    by_cases hk : ((nx : ℕ) : ℤ) = k
    · have hzero : ((List.range nx).map
          (fun x => if ((x : ℕ) : ℤ) = k then v else 0)).sum = 0 := by
        apply List.sum_eq_zero
        intro y hy
        obtain ⟨x, hx, hxy⟩ := List.mem_map.mp hy
        rw [List.mem_range] at hx
        rw [← hxy, if_neg (by omega)]
      rw [hzero]
      simp [hk]
    · rw [ih h1 (by omega)]
      simp [hk]

theorem c7Expected_count_plus (pts : List Point) (o p : ℤ) (nx ny nz : ℕ) :
    ∀ cs : List Cell3, (∀ c ∈ cs, c ∈ cellList (nx, ny, nz)) →
    (c7Expected pts o p nx cs).countP
        (fun pr => decide (pr.2.map (fun c => c.1) = some (nx : ℤ)))
      = cs.countP (fun c => decide (c.1 = (nx : ℤ) - 1)) := by
  intro cs
  induction cs with
  | nil => intro _; simp [c7Expected]
  | cons c cs ih =>
    intro hmem
    have hc := (mem_cellList nx ny nz c).mp (hmem c (by simp))
    have hpts : (pts.map (fun q => ((some q.point_id : Option ℤ),
        (some c : Option Cell3)))).countP
        (fun pr => decide (pr.2.map (fun c => c.1) = some (nx : ℤ))) = 0 := by
      apply List.countP_eq_zero.mpr
      intro pr hpr
      obtain ⟨q, _, hq⟩ := List.mem_map.mp hpr
      subst hq
      simp only [decide_eq_true_eq, Option.map_some', Option.some.injEq]
      omega
    rw [c7Expected, List.flatMap_cons, ← c7Expected]
    simp only [List.countP_append]
    rw [ih (fun c2 h2 => hmem c2 (by simp [h2])), hpts, List.countP_cons]
    by_cases hface : c.1 = (nx : ℤ) - 1
    · rw [if_pos hface]
      by_cases hzero : c.1 = 0
      · rw [if_pos hzero]
        simp only [cellAdd, cellSub, List.countP_cons, List.countP_nil, Option.map_some',
          decide_eq_true_eq, Option.some.injEq]
        split_ifs <;> omega
      · rw [if_neg hzero]
        simp only [cellAdd, List.countP_cons, List.countP_nil, Option.map_some',
          decide_eq_true_eq, Option.some.injEq]
        split_ifs <;> omega
    · rw [if_neg hface]
      by_cases hzero : c.1 = 0
      · rw [if_pos hzero]
        simp only [cellSub, List.countP_cons, List.countP_nil, Option.map_some',
          decide_eq_true_eq, Option.some.injEq]
        split_ifs <;> omega
      · rw [if_neg hzero]
        simp only [List.countP_nil, decide_eq_true_eq]
        split_ifs <;> omega

theorem c7Expected_count_minus (pts : List Point) (o p : ℤ) (nx ny nz : ℕ) :
    ∀ cs : List Cell3, (∀ c ∈ cs, c ∈ cellList (nx, ny, nz)) →
    (c7Expected pts o p nx cs).countP
        (fun pr => decide (pr.2.map (fun c => c.1) = some (-1 : ℤ)))
      = cs.countP (fun c => decide (c.1 = 0)) := by
  intro cs
  induction cs with
  | nil => intro _; simp [c7Expected]
  | cons c cs ih =>
    intro hmem
    have hc := (mem_cellList nx ny nz c).mp (hmem c (by simp))
    have hpts : (pts.map (fun q => ((some q.point_id : Option ℤ),
        (some c : Option Cell3)))).countP
        (fun pr => decide (pr.2.map (fun c => c.1) = some (-1 : ℤ))) = 0 := by
      apply List.countP_eq_zero.mpr
      intro pr hpr
      obtain ⟨q, _, hq⟩ := List.mem_map.mp hpr
      subst hq
      simp only [decide_eq_true_eq, Option.map_some', Option.some.injEq]
      omega
    rw [c7Expected, List.flatMap_cons, ← c7Expected]
    simp only [List.countP_append]
    rw [ih (fun c2 h2 => hmem c2 (by simp [h2])), hpts, List.countP_cons]
    by_cases hface : c.1 = (nx : ℤ) - 1
    · rw [if_pos hface]
      by_cases hzero : c.1 = 0
      · rw [if_pos hzero]
        simp only [cellAdd, cellSub, List.countP_cons, List.countP_nil, Option.map_some',
          decide_eq_true_eq, Option.some.injEq]
        split_ifs <;> omega
      · rw [if_neg hzero]
        simp only [cellAdd, List.countP_cons, List.countP_nil, Option.map_some',
          decide_eq_true_eq, Option.some.injEq]
        split_ifs <;> omega
    · rw [if_neg hface]
      by_cases hzero : c.1 = 0
      · rw [if_pos hzero]
        simp only [cellSub, List.countP_cons, List.countP_nil, Option.map_some',
          decide_eq_true_eq, Option.some.injEq]
        split_ifs <;> omega
      · rw [if_neg hzero]
        simp only [List.countP_nil, decide_eq_true_eq]
        split_ifs <;> omega

theorem cellList_count_x (nx ny nz : ℕ) (k : ℤ) (h0 : 0 ≤ k) (hk : k < (nx : ℤ)) :
    (cellList (nx, ny, nz)).countP (fun c => decide (c.1 = k)) = ny * nz := by
  unfold cellList
  rw [countP_flatMap]
  have hblock : ∀ x ∈ List.range nx,
      (((List.range ny).flatMap (fun y => (List.range nz).map (fun z =>
        (((x : ℕ) : ℤ), ((y : ℕ) : ℤ), ((z : ℕ) : ℤ))))).countP
        (fun c => decide (c.1 = k)))
      = if ((x : ℕ) : ℤ) = k then ny * nz else 0 := by
    intro x _
    by_cases hx : ((x : ℕ) : ℤ) = k
    · rw [if_pos hx]
      have hall : ∀ c ∈ (List.range ny).flatMap (fun y => (List.range nz).map (fun z =>
          (((x : ℕ) : ℤ), ((y : ℕ) : ℤ), ((z : ℕ) : ℤ)))),
          (fun c : Cell3 => decide (c.1 = k)) c = true := by
        intro c hc
        simp only [List.mem_flatMap, List.mem_map, List.mem_range] at hc
        obtain ⟨y, _, z, _, rfl⟩ := hc
        simp [hx]
      rw [List.countP_eq_length.mpr hall]
      exact length_flatMap_const _ _ nz (fun y _ => by simp) |>.trans (by simp)
    · rw [if_neg hx]
      apply List.countP_eq_zero.mpr
      intro c hc
      simp only [List.mem_flatMap, List.mem_map, List.mem_range] at hc
      obtain ⟨y, _, z, _, rfl⟩ := hc
      simp [hx]
  rw [List.map_congr_left hblock, sum_map_range_ite k (ny * nz) nx h0 hk]

theorem bind_ok_left {α β : Type} {x : Except String α} {k : α → Except String β} {a : α}
    (h : x = .ok a) : (x >>= k) = k a := by
  rw [h]
  rfl

theorem cellAdd_cancel (v a b : Cell3) (h : cellAdd a v = cellAdd b v) : a = b := by
  obtain ⟨a1, a2, a3⟩ := a
  obtain ⟨b1, b2, b3⟩ := b
  obtain ⟨v1, v2, v3⟩ := v
  simp only [cellAdd, Prod.mk.injEq] at h ⊢
  omega

theorem cellSub_cancel (v a b : Cell3) (h : cellSub a v = cellSub b v) : a = b := by
  obtain ⟨a1, a2, a3⟩ := a
  obtain ⟨b1, b2, b3⟩ := b
  obtain ⟨v1, v2, v3⟩ := v
  simp only [cellSub, Prod.mk.injEq] at h ⊢
  omega

theorem p1Proj_pushAtom (bs : BuildState) (a : Atom) :
    p1Proj (pushAtom bs a) = p1Proj bs ++ [projOf a] := by
  simp [p1Proj, pushAtom]

theorem p1Proj_gridAtoms (pts : List Point) (dims : Vec3) (c : Cell3) (bs : BuildState) :
    p1Proj (gridAtoms pts dims c bs) =
      p1Proj bs ++ pts.map (fun q => ((some q.point_id : Option ℤ), (some c : Option Cell3))) := by
  unfold p1Proj
  rw [gridAtoms_heap, List.map_append, List.map_map]
  congr 1

theorem c7Expected_append (pts : List Point) (o p : ℤ) (nx : ℕ) (cs1 cs2 : List Cell3) :
    c7Expected pts o p nx (cs1 ++ cs2) =
      c7Expected pts o p nx cs1 ++ c7Expected pts o p nx cs2 := by
  simp [c7Expected, List.flatMap_append]

theorem mem_c7Expected (pts : List Point) (o p : ℤ) (nx : ℕ) (cs : List Cell3)
    (pr : Option ℤ × Option Cell3) (h : pr ∈ c7Expected pts o p nx cs) :
    (∃ d ∈ cs, ∃ q ∈ pts, pr = (some q.point_id, some d)) ∨
    (∃ d ∈ cs, d.1 = (nx : ℤ) - 1 ∧ pr = (some p, some (cellAdd d (1, 0, 0)))) ∨
    (∃ d ∈ cs, d.1 = 0 ∧ pr = (some o, some (cellSub d (1, 0, 0)))) := by
  rw [c7Expected, List.mem_flatMap] at h
  obtain ⟨d, hd, hin⟩ := h
  rw [List.mem_append, List.mem_append] at hin
  rcases hin with (hin | hin) | hin
  · left
    obtain ⟨q, hq, hpr⟩ := List.mem_map.mp hin
    exact ⟨d, hd, q, hq, hpr.symm⟩
  · right; left
    split_ifs at hin with hcond
    · rw [List.mem_singleton] at hin
      exact ⟨d, hd, hcond, hin⟩
    · simp at hin
  · right; right
    split_ifs at hin with hcond
    · rw [List.mem_singleton] at hin
      exact ⟨d, hd, hcond, hin⟩
    · simp at hin

theorem c7_target_mem (nx ny nz : ℕ) (c : Cell3) (hc : c ∈ cellList (nx, ny, nz)) :
    cellAdd c (1, 0, 0) ∈ cellList (nx, ny, nz) ↔ ¬(c.1 = (nx : ℤ) - 1) := by
  have hcc := (mem_cellList nx ny nz c).mp hc
  rw [mem_cellList]
  simp only [cellAdd]
  omega

theorem c7_mirror_mem (nx ny nz : ℕ) (c : Cell3) (hc : c ∈ cellList (nx, ny, nz)) :
    cellSub c (1, 0, 0) ∈ cellList (nx, ny, nz) ↔ ¬(c.1 = 0) := by
  have hcc := (mem_cellList nx ny nz c).mp hc
  rw [mem_cellList]
  simp only [cellSub]
  omega

theorem c7_target_fresh (pts : List Point) (o p : ℤ) (nx ny nz : ℕ)
    (done : List Cell3) (c : Cell3)
    (hsub : ∀ d ∈ done, d ∈ cellList (nx, ny, nz)) (hnotin : c ∉ done)
    (htn : cellAdd c (1, 0, 0) ∉ cellList (nx, ny, nz))
    (hc : c ∈ cellList (nx, ny, nz)) :
    ((some p : Option ℤ), (some (cellAdd c (1, 0, 0)) : Option Cell3)) ∉
      c7Expected pts o p nx done := by
  intro hmem
  have hcc := (mem_cellList nx ny nz c).mp hc
  rcases mem_c7Expected pts o p nx done _ hmem with
    ⟨d, hd, q, hq, hpr⟩ | ⟨d, hd, _, hpr⟩ | ⟨d, hd, hd0, hpr⟩
  · simp only [Prod.mk.injEq, Option.some.injEq] at hpr
    exact htn (by rw [hpr.2]; exact hsub d hd)
  · simp only [Prod.mk.injEq, Option.some.injEq] at hpr
    have hcd : c = d := cellAdd_cancel (1, 0, 0) c d hpr.2
    exact hnotin (by rw [hcd]; exact hd)
  · simp only [Prod.mk.injEq, Option.some.injEq] at hpr
    have h9 : c.1 + 1 = d.1 - 1 := congrArg Prod.fst hpr.2
    omega

theorem c7_mirror_fresh (pts : List Point) (o p : ℤ) (nx ny nz : ℕ)
    (done : List Cell3) (c : Cell3)
    (hsub : ∀ d ∈ done, d ∈ cellList (nx, ny, nz)) (hnotin : c ∉ done)
    (hmn : cellSub c (1, 0, 0) ∉ cellList (nx, ny, nz))
    (hc : c ∈ cellList (nx, ny, nz)) :
    ((some o : Option ℤ), (some (cellSub c (1, 0, 0)) : Option Cell3)) ∉
      c7Expected pts o p nx done := by
  intro hmem
  have hcc := (mem_cellList nx ny nz c).mp hc
  rcases mem_c7Expected pts o p nx done _ hmem with
    ⟨d, hd, q, hq, hpr⟩ | ⟨d, hd, hdf, hpr⟩ | ⟨d, hd, _, hpr⟩
  · simp only [Prod.mk.injEq, Option.some.injEq] at hpr
    exact hmn (by rw [hpr.2]; exact hsub d hd)
  · simp only [Prod.mk.injEq, Option.some.injEq] at hpr
    have h9 : c.1 - 1 = d.1 + 1 := congrArg Prod.fst hpr.2
    omega
  · simp only [Prod.mk.injEq, Option.some.injEq] at hpr
    have hcd : c = d := cellSub_cancel (1, 0, 0) c d hpr.2
    exact hnotin (by rw [hcd]; exact hd)

theorem c7_target_step (pts : List Point) (o p : ℤ) (dims : Vec3) (nx ny nz : ℕ)
    (hpp : ∃ q ∈ pts, q.point_id = p)
    (done : List Cell3) (c : Cell3) (st1 : P1State)
    (hsub : ∀ d ∈ done, d ∈ cellList (nx, ny, nz)) (hnotin : c ∉ done)
    (hc : c ∈ cellList (nx, ny, nz))
    (hplain1 : P1Plain st1.bs)
    (hproj1 : p1Proj st1.bs = c7Expected pts o p nx done ++
      pts.map (fun q => ((some q.point_id : Option ℤ), (some c : Option Cell3)))) :
    ∃ stA, phase1ConnTarget pts dims (cellList (nx, ny, nz)) c (c7conn o p) st1 = .ok stA ∧
      P1Plain stA.bs ∧
      p1Proj stA.bs = c7Expected pts o p nx done ++
        pts.map (fun q => ((some q.point_id : Option ℤ), (some c : Option Cell3))) ++
        (if c.1 = (nx : ℤ) - 1 then
          [((some p : Option ℤ), (some (cellAdd c (1, 0, 0)) : Option Cell3))] else []) := by
  by_cases hface : c.1 = (nx : ℤ) - 1
  · have htn : cellAdd c (1, 0, 0) ∉ cellList (nx, ny, nz) :=
      fun hm => ((c7_target_mem nx ny nz c hc).mp hm) hface
    obtain ⟨pc, hpc⟩ := findCoords_ok pts p hpp
    have hex : existsAtom st1.bs p (cellAdd c (1, 0, 0)) = false := by
      cases hb : existsAtom st1.bs p (cellAdd c (1, 0, 0)) with
      | false => rfl
      | true =>
        exfalso
        have hmem := (existsAtom_iff st1.bs p (cellAdd c (1, 0, 0)) hplain1.1).mp hb
        rw [hproj1, List.mem_append] at hmem
        rcases hmem with hm | hm
        · exact c7_target_fresh pts o p nx ny nz done c hsub hnotin htn hc hm
        · obtain ⟨q, hq, hpr⟩ := List.mem_map.mp hm
          simp only [Prod.mk.injEq, Option.some.injEq] at hpr
          have h9 : c.1 = c.1 + 1 := congrArg Prod.fst hpr.2
          omega
    refine ⟨⟨pushAtom st1.bs (c7TargetAtom dims c p pc), st1.mirrors⟩, ?_, ?_, ?_⟩
    · rw [phase1ConnTarget]
      simp only [c7conn]
      rw [if_neg htn, hpc, hex]
      rfl
    · exact pushAtom_plain st1.bs _ rfl hplain1
    · rw [show ((⟨pushAtom st1.bs (c7TargetAtom dims c p pc), st1.mirrors⟩ : P1State)).bs =
        pushAtom st1.bs (c7TargetAtom dims c p pc) from rfl, p1Proj_pushAtom, hproj1,
        if_pos hface]
      rfl
  · have htm : cellAdd c (1, 0, 0) ∈ cellList (nx, ny, nz) :=
      (c7_target_mem nx ny nz c hc).mpr hface
    refine ⟨st1, ?_, hplain1, ?_⟩
    · rw [phase1ConnTarget]
      simp only [c7conn]
      rw [if_pos htm]
      rfl
    · rw [hproj1, if_neg hface, List.append_nil]

theorem c7_sym_step (pts : List Point) (o p : ℤ) (dims : Vec3) (nx ny nz : ℕ)
    (ho : ∃ q ∈ pts, q.point_id = o)
    (done : List Cell3) (c : Cell3) (stA : P1State)
    (hsub : ∀ d ∈ done, d ∈ cellList (nx, ny, nz)) (hnotin : c ∉ done)
    (hc : c ∈ cellList (nx, ny, nz))
    (hplainA : P1Plain stA.bs)
    (hprojA : p1Proj stA.bs = c7Expected pts o p nx done ++
      pts.map (fun q => ((some q.point_id : Option ℤ), (some c : Option Cell3))) ++
      (if c.1 = (nx : ℤ) - 1 then
        [((some p : Option ℤ), (some (cellAdd c (1, 0, 0)) : Option Cell3))] else [])) :
    ∃ stB, phase1ConnSym pts dims (cellList (nx, ny, nz)) true c (c7conn o p) stA = .ok stB ∧
      P1Plain stB.bs ∧
      p1Proj stB.bs = p1Proj stA.bs ++
        (if c.1 = 0 then
          [((some o : Option ℤ), (some (cellSub c (1, 0, 0)) : Option Cell3))] else []) := by
  by_cases hzero : c.1 = 0
  · have hmn : cellSub c (1, 0, 0) ∉ cellList (nx, ny, nz) :=
      fun hm => ((c7_mirror_mem nx ny nz c hc).mp hm) hzero
    obtain ⟨oc, hoc⟩ := findCoords_ok pts o ho
    have hex2 : existsAtom stA.bs o (cellSub c (1, 0, 0)) = false := by
      cases hb : existsAtom stA.bs o (cellSub c (1, 0, 0)) with
      | false => rfl
      | true =>
        exfalso
        have hmem := (existsAtom_iff stA.bs o (cellSub c (1, 0, 0)) hplainA.1).mp hb
        rw [hprojA, List.mem_append, List.mem_append] at hmem
        rcases hmem with (hm | hm) | hm
        · exact c7_mirror_fresh pts o p nx ny nz done c hsub hnotin hmn hc hm
        · obtain ⟨q, hq, hpr⟩ := List.mem_map.mp hm
          simp only [Prod.mk.injEq, Option.some.injEq] at hpr
          have h9 : c.1 = c.1 - 1 := congrArg Prod.fst hpr.2
          omega
        · split_ifs at hm with hcond
          · rw [List.mem_singleton] at hm
            simp only [Prod.mk.injEq, Option.some.injEq] at hm
            have h9 : c.1 - 1 = c.1 + 1 := congrArg Prod.fst hm.2
            omega
          · simp at hm
    refine ⟨⟨pushAtom stA.bs (c7MirrorAtom dims c o oc),
      stA.mirrors ++ [c7MirrorEntry o p c]⟩, ?_, ?_, ?_⟩
    · rw [phase1ConnSym]
      simp only [c7conn]
      rw [if_pos trivial, if_neg hmn, hoc, hex2]
      rfl
    · exact pushAtom_plain stA.bs _ rfl hplainA
    · rw [show ((⟨pushAtom stA.bs (c7MirrorAtom dims c o oc),
        stA.mirrors ++ [c7MirrorEntry o p c]⟩ : P1State)).bs =
        pushAtom stA.bs (c7MirrorAtom dims c o oc) from rfl, p1Proj_pushAtom, if_pos hzero]
      rfl
  · have hmm : cellSub c (1, 0, 0) ∈ cellList (nx, ny, nz) :=
      (c7_mirror_mem nx ny nz c hc).mpr hzero
    refine ⟨stA, ?_, hplainA, ?_⟩
    · rw [phase1ConnSym]
      simp only [c7conn]
      rw [if_pos trivial, if_pos hmm]
      rfl
    · rw [if_neg hzero, List.append_nil]

theorem c7_cell_step (pts : List Point) (o p : ℤ) (dims : Vec3) (nx ny nz : ℕ)
    (ho : ∃ q ∈ pts, q.point_id = o) (hpp : ∃ q ∈ pts, q.point_id = p)
    (done : List Cell3) (c : Cell3) (st : P1State)
    (hsub : ∀ d ∈ done, d ∈ cellList (nx, ny, nz)) (hnotin : c ∉ done)
    (hc : c ∈ cellList (nx, ny, nz))
    (hplain : P1Plain st.bs)
    (hproj : p1Proj st.bs = c7Expected pts o p nx done) :
    ∃ st2, phase1Cell pts [c7conn o p] dims (cellList (nx, ny, nz)) true true st c = .ok st2 ∧
      P1Plain st2.bs ∧
      p1Proj st2.bs = c7Expected pts o p nx (done ++ [c]) := by
  have hplain1 : P1Plain (({ st with bs := gridAtoms pts dims c st.bs } : P1State)).bs :=
    gridAtoms_plain pts dims c st.bs hplain
  have hproj1 : p1Proj (({ st with bs := gridAtoms pts dims c st.bs } : P1State)).bs =
      c7Expected pts o p nx done ++
      pts.map (fun q => ((some q.point_id : Option ℤ), (some c : Option Cell3))) := by
    rw [show (({ st with bs := gridAtoms pts dims c st.bs } : P1State)).bs =
      gridAtoms pts dims c st.bs from rfl, p1Proj_gridAtoms, hproj]
  obtain ⟨stA, hA, hplA, hprA⟩ := c7_target_step pts o p dims nx ny nz hpp done c
    { st with bs := gridAtoms pts dims c st.bs } hsub hnotin hc hplain1 hproj1
  obtain ⟨stB, hB, hplB, hprB⟩ := c7_sym_step pts o p dims nx ny nz ho done c stA
    hsub hnotin hc hplA hprA
  have hConn : phase1Conn pts dims (cellList (nx, ny, nz)) true c
      { st with bs := gridAtoms pts dims c st.bs } (c7conn o p) = .ok stB := by
    rw [phase1Conn, bind_ok_left hA]
    exact hB
  refine ⟨stB, ?_, hplB, ?_⟩
  · rw [phase1Cell, if_pos rfl, phase1Conns, bind_ok_left hConn, phase1Conns]
  · rw [hprB, hprA, c7Expected_append]
    simp [c7Expected, List.append_assoc]

theorem c7_phase1Go (pts : List Point) (o p : ℤ) (dims : Vec3) (nx ny nz : ℕ)
    (ho : ∃ q ∈ pts, q.point_id = o) (hpp : ∃ q ∈ pts, q.point_id = p) :
    ∀ (rest done : List Cell3) (st : P1State),
    done ++ rest = cellList (nx, ny, nz) →
    P1Plain st.bs →
    p1Proj st.bs = c7Expected pts o p nx done →
    ∃ st2, phase1Go pts [c7conn o p] dims (cellList (nx, ny, nz)) true true rest st = .ok st2 ∧
      P1Plain st2.bs ∧
      p1Proj st2.bs = c7Expected pts o p nx (cellList (nx, ny, nz)) := by
  intro rest
  induction rest with
  | nil =>
    intro done st hsplit hplain hproj
    refine ⟨st, ?_, hplain, ?_⟩
    · rw [phase1Go]
    · rw [hproj, ← hsplit, List.append_nil]
  | cons c rest ih =>
    intro done st hsplit hplain hproj
    have hnodup := cellList_nodup nx ny nz
    rw [← hsplit] at hnodup
    have hsub : ∀ d ∈ done, d ∈ cellList (nx, ny, nz) := by
      intro d hd
      rw [← hsplit]
      exact List.mem_append_left _ hd
    have hcmem : c ∈ cellList (nx, ny, nz) := by
      rw [← hsplit]
      exact List.mem_append_right _ (by simp)
    have hnotin : c ∉ done := fun hcd =>
      List.disjoint_of_nodup_append hnodup hcd (List.mem_cons_self c rest)
    obtain ⟨st1, h1, hpl1, hpr1⟩ := c7_cell_step pts o p dims nx ny nz ho hpp done c st
      hsub hnotin hcmem hplain hproj
    obtain ⟨st2, h2, hpl2, hpr2⟩ := ih (done ++ [c]) st1
      (by rw [List.append_assoc, List.singleton_append]; exact hsplit) hpl1 hpr1
    refine ⟨st2, ?_, hpl2, hpr2⟩
    rw [phase1Go, bind_ok_left h1]
    exact h2

/-- Claim C7: for a template whose single connection crosses (1, 0, 0) and
names template points as origin and partner, a build with dangling and
symmetric enabled creates boundary atoms both beyond the positive x face
(owning cell x index nx) and before the negative x face (owning cell x
index -1), and the two faces carry the same number of boundary atoms,
namely ny times nz each. -/
theorem c7_symmetric_mirroring (pts : List Point) (o p : ℤ) (dims : Vec3) (nx ny nz : ℕ)
    (h1 : 0 < nx) (h2 : 0 < ny) (h3 : 0 < nz)
    (ho : ∃ q ∈ pts, q.point_id = o) (hpp : ∃ q ∈ pts, q.point_id = p) :
    ∃ p1, phase1 pts [c7conn o p] dims (nx, ny, nz) true true = .ok p1 ∧
      0 < faceCount p1.bs ((nx : ℕ) : ℤ) ∧ 0 < faceCount p1.bs (-1) ∧
      faceCount p1.bs ((nx : ℕ) : ℤ) = faceCount p1.bs (-1) ∧
      faceCount p1.bs ((nx : ℕ) : ℤ) = ny * nz := by
  obtain ⟨p1, hgo, hplain, hproj⟩ := c7_phase1Go pts o p dims nx ny nz ho hpp
    (cellList (nx, ny, nz)) [] p1Init rfl p1Init_plain rfl
  have hcount : ∀ k : ℤ, faceCount p1.bs k =
      (c7Expected pts o p nx (cellList (nx, ny, nz))).countP
        (fun pr => decide (pr.2.map (fun d => d.1) = some k)) := by
    intro k
    rw [faceCount, hplain.1,
      idList_countP (fun a => decide (a.owning_cell.map (fun d => d.1) = some k)) p1.bs.heap,
      ← hproj, p1Proj, List.countP_map]
    rfl
  have hplus := hcount ((nx : ℕ) : ℤ)
  rw [c7Expected_count_plus pts o p nx ny nz (cellList (nx, ny, nz)) (fun d hd => hd),
    cellList_count_x nx ny nz ((nx : ℤ) - 1) (by omega) (by omega)] at hplus
  have hminus := hcount (-1)
  rw [c7Expected_count_minus pts o p nx ny nz (cellList (nx, ny, nz)) (fun d hd => hd),
    cellList_count_x nx ny nz 0 (by omega) (by omega)] at hminus
  refine ⟨p1, ?_, ?_, ?_, ?_, hplus⟩
  · rw [phase1]
    exact hgo
  · rw [hplus]
    exact Nat.mul_pos h2 h3
  · rw [hminus]
    exact Nat.mul_pos h2 h3
  · rw [hplus, hminus]

/-- Claim C7, witness: a one point template with the self connection
crossing (1, 0, 0), replicated on a two by one by one grid, yields one
boundary atom beyond the positive x face and one before the negative x
face. -/
theorem c7_symmetric_witness :
    ∃ p1, phase1 onePointT [c7conn 1 1] (1, 1, 1) (2, 1, 1) true true = .ok p1 ∧
      0 < faceCount p1.bs ((2 : ℕ) : ℤ) ∧ 0 < faceCount p1.bs (-1) ∧
      faceCount p1.bs ((2 : ℕ) : ℤ) = faceCount p1.bs (-1) ∧
      faceCount p1.bs ((2 : ℕ) : ℤ) = 1 * 1 :=
  c7_symmetric_mirroring onePointT 1 1 (1, 1, 1) 2 1 1 (by norm_num) (by norm_num)
    (by norm_num) ⟨{ point_id := 1, coords := (0, 0, 0) }, by simp [onePointT], rfl⟩
    ⟨{ point_id := 1, coords := (0, 0, 0) }, by simp [onePointT], rfl⟩

theorem bumpAt_length : ∀ (hp : List Atom) (n : ℕ) (d : ℤ),
    (bumpAt hp n d).length = hp.length
  | [], _, _ => rfl
  | _ :: t, 0, _ => rfl
  | a :: t, n + 1, d => by simp [bumpAt, bumpAt_length t n d]

theorem getD_bumpAt_self : ∀ (hp : List Atom) (n : ℕ) (d : ℤ), n < hp.length →
    (bumpAt hp n d).getD n deadAtom =
      { hp.getD n deadAtom with bonds := (hp.getD n deadAtom).bonds + d }
  | [], n, d, h => by simp at h
  | a :: t, 0, d, _ => by simp [bumpAt, List.getD]
  | a :: t, n + 1, d, h => by
    simp only [bumpAt, List.getD_cons_succ]
    exact getD_bumpAt_self t n d (by simpa using h)

theorem getD_bumpAt_ne : ∀ (hp : List Atom) (n m : ℕ) (d : ℤ), n ≠ m →
    (bumpAt hp n d).getD m deadAtom = hp.getD m deadAtom
  | [], _, _, _, _ => by simp [bumpAt]
  | a :: t, 0, 0, d, h => absurd rfl h
  | a :: t, 0, m + 1, d, _ => by simp [bumpAt, List.getD]
  | a :: t, n + 1, 0, d, _ => by simp [bumpAt, List.getD]
  | a :: t, n + 1, m + 1, d, h => by
    simp only [bumpAt, List.getD_cons_succ]
    exact getD_bumpAt_ne t n m d (by omega)

theorem atomAt_bumpDeg_self (hp : List Atom) (id : ℕ) (d : ℤ)
    (h1 : 1 ≤ id) (h2 : id ≤ hp.length) :
    atomAt (bumpDeg hp id d) id =
      { atomAt hp id with bonds := (atomAt hp id).bonds + d } := by
  rw [atomAt, atomAt, bumpDeg]
  exact getD_bumpAt_self hp (id - 1) d (by omega)

theorem atomAt_bumpDeg_ne (hp : List Atom) (id id2 : ℕ) (d : ℤ)
    (h1 : 1 ≤ id) (h2 : 1 ≤ id2) (hne : id ≠ id2) :
    atomAt (bumpDeg hp id d) id2 = atomAt hp id2 := by
  rw [atomAt, atomAt, bumpDeg]
  exact getD_bumpAt_ne hp (id - 1) (id2 - 1) d (by omega)

theorem getD_bonds_nonneg (hp : List Atom) (h : ∀ a ∈ hp, 0 ≤ a.bonds) (n : ℕ) :
    0 ≤ (hp.getD n deadAtom).bonds := by
  by_cases hn : n < hp.length
  · rw [List.getD_eq_getElem hp deadAtom hn]
    exact h _ (List.getElem_mem hn)
  · rw [List.getD_eq_default hp deadAtom (by omega)]
    norm_num [deadAtom]

theorem bumpAt_nonneg : ∀ (hp : List Atom) (n : ℕ) (d : ℤ),
    (∀ a ∈ hp, 0 ≤ a.bonds) → 0 ≤ (hp.getD n deadAtom).bonds + d →
    ∀ a ∈ bumpAt hp n d, 0 ≤ a.bonds
  | [], _, _, _, _ => by simp [bumpAt]
  | a :: t, 0, d, h, hn => by
    intro x hx
    simp only [bumpAt, List.mem_cons] at hx
    rcases hx with hx | hx
    · rw [hx]
      simpa [List.getD] using hn
    · exact h x (by simp [hx])
  | a :: t, n + 1, d, h, hn => by
    intro x hx
    simp only [bumpAt, List.mem_cons] at hx
    rcases hx with hx | hx
    · exact h x (by simp [hx])
    · exact bumpAt_nonneg t n d (fun y hy => h y (by simp [hy]))
        (by simpa [List.getD] using hn) x hx

theorem refCount_nil (d : ℕ) : refCount d [] = 0 := rfl

theorem refCount_cons (d : ℕ) (x : ℕ × ℕ) (vl : List (ℕ × ℕ)) :
    refCount d (x :: vl) = refCount d vl +
      (if x.1 = d then 1 else 0) + (if x.2 = d then 1 else 0) := by
  simp only [refCount, List.countP_cons, decide_eq_true_eq]
  split_ifs <;> omega

theorem refCount_append_one (d : ℕ) (vl : List (ℕ × ℕ)) (pr : ℕ × ℕ) :
    refCount d (vl ++ [pr]) = refCount d vl +
      (if pr.1 = d then 1 else 0) + (if pr.2 = d then 1 else 0) := by
  simp only [refCount, List.countP_append, List.countP_cons, List.countP_nil,
    decide_eq_true_eq]
  split_ifs <;> omega

theorem refCount_zero_iff (d : ℕ) (vl : List (ℕ × ℕ)) :
    refCount d vl = 0 ↔ ∀ x ∈ vl, x.1 ≠ d ∧ x.2 ≠ d := by
  induction vl with
  | nil => simp [refCount]
  | cons x vl ih =>
    rw [refCount_cons]
    constructor
    · intro h
      have hx1 : ¬(x.1 = d) := by
        intro hc
        rw [if_pos hc] at h
        omega
      have hx2 : ¬(x.2 = d) := by
        intro hc
        rw [if_pos hc] at h
        omega
      intro y hy
      rcases List.mem_cons.mp hy with hy | hy
      · rw [hy]
        exact ⟨hx1, hx2⟩
      · exact (ih.mp (by omega)) y hy
    · intro h
      have hx := h x (by simp)
      rw [if_neg hx.1, if_neg hx.2, ih.mpr (fun y hy => h y (by simp [hy]))]

theorem refCount_perm (d : ℕ) (vl vl2 : List (ℕ × ℕ)) (h : vl.Perm vl2) :
    refCount d vl = refCount d vl2 := by
  rw [refCount, refCount, h.countP_eq, h.countP_eq]

theorem P1Plain_WF (bs : BuildState) (h : P1Plain bs) : WFState bs := by
  obtain ⟨h1, h2, h3, h4, h5⟩ := h
  have hbonds : ∀ id ∈ bs.full_atom_list, (atomAt bs.heap id).bonds = 0 := by
    intro id hid
    rw [h1, mem_idList] at hid
    obtain ⟨hlt, hat⟩ := atomAt_eq_getElem bs.heap id hid.1 hid.2
    rw [hat]
    exact h5 _ (List.getElem_mem hlt)
  refine ⟨?_, ?_, ?_, ?_, ?_⟩
  · rw [h1]
    exact idList_nodup bs.heap.length
  · intro id hid
    rw [h1, mem_idList] at hid
    exact hid
  · intro pr hpr
    rw [h2] at hpr
    simp at hpr
  · intro id hid
    rw [hbonds id hid, h2, refCount_nil]
    rfl
  · intro a ha
    rw [h5 a ha]

theorem resolveConn_wf (c : Cell3) (st : BuildState) (conn : Connection)
    (h : WFState st) : WFState (resolveConn c st conn) := by
  obtain ⟨hnd, hval, hep, hdeg, hnn⟩ := h
  rw [resolveConn]
  cases ho : st.full_atom_list.find? (fun id =>
      projMatch (atomAt st.heap id) conn.origin c) with
  | none => simpa using ⟨hnd, hval, hep, hdeg, hnn⟩
  | some o =>
    cases hp : st.full_atom_list.find? (fun id =>
        projMatch (atomAt st.heap id) conn.partner (cellAdd c conn.cell_crossings)) with
    | none => simpa using ⟨hnd, hval, hep, hdeg, hnn⟩
    | some p =>
      simp only []
      have hom : o ∈ st.full_atom_list := List.mem_of_find?_eq_some ho
      have hpm : p ∈ st.full_atom_list := List.mem_of_find?_eq_some hp
      have hov := hval o hom
      have hpv := hval p hpm
      have hlen : (bumpDeg (bumpDeg st.heap o 1) p 1).length = st.heap.length := by
        rw [bumpDeg, bumpDeg, bumpAt_length, bumpAt_length]
      refine ⟨hnd, ?_, ?_, ?_, ?_⟩
      · intro id hid
        rw [hlen]
        exact hval id hid
      · intro pr hpr
        rw [List.mem_append] at hpr
        rcases hpr with hpr | hpr
        · exact hep pr hpr
        · rw [List.mem_singleton] at hpr
          rw [hpr]
          exact ⟨hom, hpm⟩
      · intro id hid
        have hiv := hval id hid
        have hbump : (atomAt (bumpDeg (bumpDeg st.heap o 1) p 1) id).bonds =
            (atomAt st.heap id).bonds +
            (if o = id then 1 else 0) + (if p = id then 1 else 0) := by
          by_cases hpo : p = id
          · rw [hpo, atomAt_bumpDeg_self _ id 1 hiv.1 (by rw [bumpDeg, bumpAt_length]; exact hiv.2)]
            by_cases hoo : o = id
            · rw [hoo, atomAt_bumpDeg_self _ id 1 hiv.1 hiv.2]
              simp
            · rw [atomAt_bumpDeg_ne _ o id 1 hov.1 hiv.1 hoo]
              simp [hoo]
          · rw [atomAt_bumpDeg_ne _ p id 1 hpv.1 hiv.1 hpo]
            by_cases hoo : o = id
            · rw [hoo, atomAt_bumpDeg_self _ id 1 hiv.1 hiv.2]
              simp [hpo]
            · rw [atomAt_bumpDeg_ne _ o id 1 hov.1 hiv.1 hoo]
              simp [hoo, hpo]
        rw [hbump, hdeg id hid, refCount_append_one]
        split_ifs <;> push_cast <;> omega
      · intro a ha
        rw [bumpDeg] at ha
        have hin : ∀ y ∈ bumpAt st.heap (o - 1) 1, 0 ≤ y.bonds :=
          bumpAt_nonneg st.heap (o - 1) 1 hnn
            (by have := getD_bonds_nonneg st.heap hnn (o - 1); omega)
        exact bumpAt_nonneg _ (p - 1) 1 hin
          (by have := getD_bonds_nonneg _ hin (p - 1); omega) a ha

theorem foldl_resolveConn_wf (c : Cell3) :
    ∀ (l : List Connection) (st : BuildState), WFState st →
    WFState (l.foldl (resolveConn c) st)
  | [], st, h => h
  | conn :: rest, st, h => by
    rw [List.foldl_cons]
    exact foldl_resolveConn_wf c rest _ (resolveConn_wf c st conn h)

theorem phase2Cell_wf (conns : List Connection) (mirrors : List MirrorEntry)
    (c : Cell3) (st : BuildState) (h : WFState st) :
    WFState (phase2Cell conns mirrors c st) :=
  foldl_resolveConn_wf c _ st h

theorem phase2_wf (conns : List Connection) (mirrors : List MirrorEntry) :
    ∀ (cells : List Cell3) (st : BuildState), WFState st →
    WFState (phase2 conns mirrors cells st)
  | [], st, h => h
  | c :: rest, st, h => by
    rw [phase2]
    exact phase2_wf conns mirrors rest _ (phase2Cell_wf conns mirrors c st h)

theorem buildPhase12_wf (pts : List Point) (conns : List Connection) (dims : Vec3)
    (size : ℕ × ℕ × ℕ) (dangling symmetric : Bool) (st : BuildState)
    (h : buildPhase12 pts conns dims size dangling symmetric = .ok st) : WFState st := by
  rw [buildPhase12, bind_eq_except_bind, except_bind_ok] at h
  obtain ⟨p1, h1, h2⟩ := h
  simp only [Pure.pure] at h2
  cases h2
  exact phase2_wf conns p1.mirrors (cellList size) p1.bs
    (P1Plain_WF p1.bs (phase1_plain pts conns dims size dangling symmetric p1 h1))

theorem scan_none (d : ℕ) : ∀ (fuel i : ℕ) (vl : List (ℕ × ℕ)) (hp : List Atom),
    vl.length ≤ i + fuel →
    (∀ pr ∈ vl.drop i, pr.1 ≠ d ∧ pr.2 ≠ d) →
    scanGo d fuel i vl hp = .ok (vl, hp)
  | 0, i, vl, hp, hfuel, _ => by rw [scanGo]
  | fuel + 1, i, vl, hp, hfuel, hnr => by
    rw [scanGo]
    by_cases hi : i < vl.length
    · rw [dif_pos hi]
      simp only []
      have hdeq := List.drop_eq_getElem_cons hi
      have hmem : vl[i] ∈ vl.drop i := by
        rw [hdeq]
        exact List.mem_cons_self _ _
      have hc := hnr vl[i] hmem
      rw [if_neg hc.1, if_neg hc.1, if_neg hc.2]
      refine scan_none d fuel (i + 1) vl hp (by omega) (fun pr hpr => hnr pr ?_)
      rw [hdeq]
      exact List.mem_cons_of_mem _ hpr
    · rw [dif_neg hi]

theorem scan_hit (d : ℕ) : ∀ (fuel i : ℕ) (vl : List (ℕ × ℕ)) (hp : List Atom)
    (u : List (ℕ × ℕ)) (pr : ℕ × ℕ) (w : List (ℕ × ℕ)),
    vl.length ≤ i + fuel →
    (∀ x ∈ vl.take i, x.1 ≠ d ∧ x.2 ≠ d) →
    vl.drop i = u ++ pr :: w →
    (∀ x ∈ u, x.1 ≠ d ∧ x.2 ≠ d) →
    (∀ x ∈ w, x.1 ≠ d ∧ x.2 ≠ d) →
    ((pr.1 = d ∧ pr.2 ≠ d) ∨ (pr.1 ≠ d ∧ pr.2 = d)) →
    scanGo d fuel i vl hp =
      .ok (vl.erase pr, bumpDeg hp (if pr.1 = d then pr.2 else pr.1) (-1)) := by
  intro fuel
  induction fuel with
  | zero =>
    intro i vl hp u pr w hfuel htake hdrop hu hw hpr
    exfalso
    have hld : (vl.drop i).length = vl.length - i := List.length_drop i vl
    rw [hdrop] at hld
    simp only [List.length_append, List.length_cons] at hld
    omega
  | succ fuel ih =>
    intro i vl hp u pr w hfuel htake hdrop hu hw hpr
    have hld : (vl.drop i).length = vl.length - i := List.length_drop i vl
    rw [hdrop] at hld
    simp only [List.length_append, List.length_cons] at hld
    have hi : i < vl.length := by omega
    rw [scanGo, dif_pos hi]
    simp only []
    have hdeq := List.drop_eq_getElem_cons hi
    cases u with
    | cons c0 u2 =>
      have hc0 : vl[i] = c0 := by
        have := hdeq.symm.trans hdrop
        simp only [List.cons_append, List.cons.injEq] at this
        exact this.1
      have hnc := hu c0 (by simp)
      rw [hc0, if_neg hnc.1, if_neg hnc.1, if_neg hnc.2]
      have hdrop2 : vl.drop (i + 1) = u2 ++ pr :: w := by
        have := hdeq.symm.trans hdrop
        simp only [List.cons_append, List.cons.injEq] at this
        exact this.2
      refine ih (i + 1) vl hp u2 pr w (by omega) ?_ hdrop2
        (fun x hx => hu x (by simp [hx])) hw hpr
      intro x hx
      rw [List.take_succ, List.mem_append] at hx
      rcases hx with hx | hx
      · exact htake x hx
      · simp only [List.getElem?_eq_getElem hi, Option.toList_some, List.mem_singleton] at hx
        rw [hx, hc0]
        exact hnc
    | nil =>
      have hc : vl[i] = pr := by
        have := hdeq.symm.trans hdrop
        simp only [List.nil_append, List.cons.injEq] at this
        exact this.1
      have hprt : pr ∉ vl.take i := by
        intro hmem
        have hno := htake pr hmem
        rcases hpr with ⟨h1, _⟩ | ⟨_, h2⟩
        · exact hno.1 h1
        · exact hno.2 h2
      have hsplitv : vl = vl.take i ++ pr :: w := by
        conv_lhs => rw [← List.take_append_drop i vl]
        rw [hdrop]
        simp
      have herase : vl.erase pr = vl.take i ++ w := by
        conv_lhs => rw [hsplitv]
        rw [List.erase_append_right _ hprt, List.erase_cons_head]
      have hnomore : ∀ x ∈ vl.take i ++ w, x.1 ≠ d ∧ x.2 ≠ d := by
        intro x hx
        rcases List.mem_append.mp hx with hx | hx
        · exact htake x hx
        · exact hw x hx
      rcases hpr with ⟨h1, h2⟩ | ⟨h1, h2⟩
      · rw [hc, if_pos h1, if_pos h1, if_neg h2, herase]
        have hfin := scan_none d fuel (i + 1) (vl.take i ++ w)
          (bumpDeg hp pr.2 (-1))
          (by simp only [List.length_append, List.length_take]; omega)
          (fun x hx => hnomore x (List.drop_subset (i + 1) (vl.take i ++ w) hx))
        rw [hfin, if_pos h1]
      · rw [hc, if_neg h1, if_neg h1, if_pos h2]
        have hprw : pr ∈ vl := by
          rw [hsplitv]
          simp
        rw [if_pos hprw, herase]
        have hfin := scan_none d fuel (i + 1) (vl.take i ++ w)
          (bumpDeg hp pr.1 (-1))
          (by simp only [List.length_append, List.length_take]; omega)
          (fun x hx => hnomore x (List.drop_subset (i + 1) (vl.take i ++ w) hx))
        rw [hfin, if_neg h1]

theorem refCount_one_split (d : ℕ) : ∀ (vl : List (ℕ × ℕ)), refCount d vl = 1 →
    ∃ u pr w, vl = u ++ pr :: w ∧
      (∀ x ∈ u, x.1 ≠ d ∧ x.2 ≠ d) ∧ (∀ x ∈ w, x.1 ≠ d ∧ x.2 ≠ d) ∧
      ((pr.1 = d ∧ pr.2 ≠ d) ∨ (pr.1 ≠ d ∧ pr.2 = d)) := by
  intro vl
  induction vl with
  | nil => intro h; rw [refCount_nil] at h; omega
  | cons x vl ih =>
    intro h
    rw [refCount_cons] at h
    by_cases hx : x.1 = d ∨ x.2 = d
    · have hrest : refCount d vl = 0 := by
        rcases hx with hx | hx
        · rw [if_pos hx] at h
          omega
        · rw [if_pos hx] at h
          split_ifs at h <;> omega
      have hone : (x.1 = d ∧ x.2 ≠ d) ∨ (x.1 ≠ d ∧ x.2 = d) := by
        rw [hrest] at h
        rcases hx with hx | hx
        · left
          refine ⟨hx, ?_⟩
          intro hc
          rw [if_pos hx, if_pos hc] at h
          omega
        · right
          refine ⟨?_, hx⟩
          intro hc
          rw [if_pos hc, if_pos hx] at h
          omega
      exact ⟨[], x, vl, rfl, by simp, (refCount_zero_iff d vl).mp hrest, hone⟩
    · push_neg at hx
      rw [if_neg hx.1, if_neg hx.2] at h
      obtain ⟨u, pr, w, hsplit, hu, hw, hpr⟩ := ih (by omega)
      refine ⟨x :: u, pr, w, by rw [hsplit]; rfl, ?_, hw, hpr⟩
      intro y hy
      rcases List.mem_cons.mp hy with hy | hy
      · rw [hy]
        exact hx
      · exact hu y hy

theorem refCount_append (d : ℕ) (l1 l2 : List (ℕ × ℕ)) :
    refCount d (l1 ++ l2) = refCount d l1 + refCount d l2 := by
  simp only [refCount, List.countP_append]
  omega

theorem prune_step_wf (st : BuildState) (d : ℕ)
    (hw : WFState st)
    (hfind : st.full_atom_list.find? (fun id => decide (degOf st.heap id = 1)) = some d) :
    ∃ vl2 hp2, scanGo d st.vector_list.length 0 st.vector_list st.heap = .ok (vl2, hp2) ∧
      WFState { st with heap := hp2, vector_list := vl2,
                        full_atom_list := st.full_atom_list.erase d } ∧
      vl2.length + 1 = st.vector_list.length ∧
      (st.full_atom_list.erase d).length + 1 = st.full_atom_list.length := by
  obtain ⟨hnd, hval, hep, hdeg, hnn⟩ := hw
  have hdm : d ∈ st.full_atom_list := List.mem_of_find?_eq_some hfind
  have hd1 : degOf st.heap d = 1 := by
    have := List.find?_some hfind
    simpa using this
  have hdv := hval d hdm
  have hrc : refCount d st.vector_list = 1 := by
    have := hdeg d hdm
    rw [degOf] at hd1
    rw [hd1] at this
    omega
  obtain ⟨u, pr, w, hsplit, hu, hw2, hpr⟩ := refCount_one_split d st.vector_list hrc
  set other := if pr.1 = d then pr.2 else pr.1 with hother
  have hscan := scan_hit d st.vector_list.length 0 st.vector_list st.heap u pr w
    (by omega) (by simp) (by simpa using hsplit) hu hw2 hpr
  have hprm : pr ∈ st.vector_list := by
    rw [hsplit]
    simp
  have hpru : pr ∉ u := by
    intro hmem
    have hno := hu pr hmem
    rcases hpr with ⟨h1, _⟩ | ⟨_, h2⟩
    · exact hno.1 h1
    · exact hno.2 h2
  have herase : st.vector_list.erase pr = u ++ w := by
    rw [hsplit, List.erase_append_right _ hpru, List.erase_cons_head]
  have hepr := hep pr hprm
  have hod : other ≠ d := by
    rcases hpr with ⟨h1, h2⟩ | ⟨h1, h2⟩
    · rw [hother, if_pos h1]
      exact h2
    · rw [hother, if_neg h1]
      exact h1
  have hom : other ∈ st.full_atom_list := by
    rcases hpr with ⟨h1, _⟩ | ⟨h1, _⟩
    · rw [hother, if_pos h1]
      exact hepr.2
    · rw [hother, if_neg h1]
      exact hepr.1
  have hov := hval other hom
  have hprc : pr.1 ≠ d → pr.1 = other := by
    intro h1
    rcases hpr with ⟨h2, _⟩ | ⟨_, h2⟩
    · exact absurd h2 h1
    · rw [hother, if_neg h1]
  have hprc2 : pr.2 ≠ d → pr.2 = other := by
    intro h2
    rcases hpr with ⟨h1, _⟩ | ⟨h1, h3⟩
    · rw [hother, if_pos h1]
    · exact absurd h3 h2
  have hsp : refCount other st.vector_list = refCount other (u ++ w) + 1 ∧
      refCount d (u ++ w) = 0 ∧
      (∀ id, id ≠ d → id ≠ other →
        refCount id st.vector_list = refCount id (u ++ w)) := by
    have hexp : ∀ x, refCount x st.vector_list = refCount x u + refCount x w +
        (if pr.1 = x then 1 else 0) + (if pr.2 = x then 1 else 0) := by
      intro x
      rw [hsplit, refCount_append, refCount_cons]
      omega
    refine ⟨?_, ?_, ?_⟩
    · rw [hexp other, refCount_append]
      rcases hpr with ⟨h1, h2⟩ | ⟨h1, h2⟩
      · rw [hother, if_pos h1]
        rw [hother, if_pos h1] at hod
        rw [if_neg (by omega : ¬(pr.1 = pr.2)), if_pos rfl]
      · rw [hother, if_neg h1]
        rw [hother, if_neg h1] at hod
        rw [if_pos rfl, if_neg (by omega : ¬(pr.2 = pr.1))]
    · rw [refCount_append]
      rw [(refCount_zero_iff d u).mpr hu, (refCount_zero_iff d w).mpr hw2]
    · intro id hid hio
      rw [hexp id, refCount_append]
      have hq1 : ¬(pr.1 = id) := by
        intro hc
        by_cases hpd : pr.1 = d
        · exact hid (hc.symm.trans hpd)
        · exact hio (hc.symm.trans (hprc hpd))
      have hq2 : ¬(pr.2 = id) := by
        intro hc
        by_cases hpd : pr.2 = d
        · exact hid (hc.symm.trans hpd)
        · exact hio (hc.symm.trans (hprc2 hpd))
      rw [if_neg hq1, if_neg hq2]
      omega
  obtain ⟨hoc, hrcz, hcon⟩ := hsp
  have hnoref : ∀ x ∈ st.vector_list.erase pr, x.1 ≠ d ∧ x.2 ≠ d := by
    rw [herase]
    exact (refCount_zero_iff d _).mp hrcz
  have hbonds_other : (atomAt st.heap other).bonds =
      ((refCount other (u ++ w) : ℕ) : ℤ) + 1 := by
    rw [hdeg other hom, hoc]
    push_cast
    ring
  refine ⟨st.vector_list.erase pr, bumpDeg st.heap other (-1), hscan, ?_, ?_, ?_⟩
  · refine ⟨hnd.erase d, ?_, ?_, ?_, ?_⟩
    · intro id hid
      simp only []
      rw [bumpDeg, bumpAt_length]
      exact hval id (List.mem_of_mem_erase hid)
    · intro x hx
      simp only [] at hx ⊢
      have hxv := List.mem_of_mem_erase hx
      have hxep := hep x hxv
      have hxnr := hnoref x hx
      exact ⟨(List.mem_erase_of_ne hxnr.1).mpr hxep.1,
             (List.mem_erase_of_ne hxnr.2).mpr hxep.2⟩
    · intro id hid
      simp only [] at hid ⊢
      have hidf : id ∈ st.full_atom_list := List.mem_of_mem_erase hid
      have hidd : id ≠ d := by
        intro hc
        rw [hc] at hid
        exact (List.Nodup.not_mem_erase hnd) hid
      by_cases hio : id = other
      · rw [hio, atomAt_bumpDeg_self st.heap other (-1) hov.1 hov.2, hbonds_other, herase]
        push_cast
        ring
      · rw [atomAt_bumpDeg_ne st.heap other id (-1) hov.1 (hval id hidf).1
          (fun hc => hio hc.symm), hdeg id hidf, herase, hcon id hidd hio]
    · intro a ha
      simp only [] at ha
      rw [bumpDeg] at ha
      refine bumpAt_nonneg st.heap (other - 1) (-1) hnn ?_ a ha
      have hgd : (st.heap.getD (other - 1) deadAtom).bonds = (atomAt st.heap other).bonds := rfl
      rw [hgd, hbonds_other]
      push_cast
      omega
  · have hle := List.length_erase_of_mem hprm
    have hlp : 1 ≤ st.vector_list.length := by
      cases hvl : st.vector_list with
      | nil => rw [hvl] at hprm; simp at hprm
      | cons a t => simp [hvl]
    omega
  · have hle := List.length_erase_of_mem hdm
    have hlp : 1 ≤ st.full_atom_list.length := by
      cases hvl : st.full_atom_list with
      | nil => rw [hvl] at hdm; simp at hdm
      | cons a t => simp [hvl]
    omega

theorem pruneGo_total : ∀ (fuel : ℕ) (st : BuildState), WFState st →
    st.full_atom_list.length ≤ fuel →
    ∃ st2, pruneGo fuel st = .ok st2 ∧ WFState st2 ∧
      st2.full_atom_list.find? (fun id => decide (degOf st2.heap id = 1)) = none
  | 0, st, hw, hlen => by
    refine ⟨st, by rw [pruneGo], hw, ?_⟩
    have hnil : st.full_atom_list = [] := List.eq_nil_of_length_eq_zero (by omega)
    rw [hnil]
    rfl
  | fuel + 1, st, hw, hlen => by
    cases hfind : st.full_atom_list.find? (fun id => decide (degOf st.heap id = 1)) with
    | none =>
      refine ⟨st, ?_, hw, hfind⟩
      rw [pruneGo, hfind]
    | some d =>
      obtain ⟨vl2, hp2, hscan, hw2, hlv, hla⟩ := prune_step_wf st d hw hfind
      obtain ⟨st2, hgo, hw3, hf3⟩ := pruneGo_total fuel
        { st with heap := hp2, vector_list := vl2,
                  full_atom_list := st.full_atom_list.erase d } hw2 (by simp only []; omega)
      refine ⟨st2, ?_, hw3, hf3⟩
      rw [pruneGo, hfind]
      simp only []
      rw [hscan]
      exact hgo

theorem pruneTraceGo_wf : ∀ (fuel : ℕ) (st : BuildState), WFState st →
    ∀ st2 ∈ pruneTraceGo fuel st, WFState st2
  | 0, st, hw => by
    intro st2 h2
    rw [pruneTraceGo, List.mem_singleton] at h2
    rw [h2]
    exact hw
  | fuel + 1, st, hw => by
    intro st2 h2
    rw [pruneTraceGo] at h2
    rcases List.mem_cons.mp h2 with h2 | h2
    · rw [h2]
      exact hw
    · cases hfind : st.full_atom_list.find? (fun id => decide (degOf st.heap id = 1)) with
      | none =>
        rw [hfind] at h2
        simp at h2
      | some d =>
        obtain ⟨vl2, hp2, hscan, hw2, _, _⟩ := prune_step_wf st d hw hfind
        rw [hfind] at h2
        simp only [] at h2
        rw [hscan] at h2
        exact pruneTraceGo_wf fuel _ hw2 st2 h2

theorem pruneGo_none (fuel : ℕ) (st : BuildState)
    (hfind : st.full_atom_list.find? (fun id => decide (degOf st.heap id = 1)) = none) :
    pruneGo fuel st = .ok st := by
  cases fuel with
  | zero => rw [pruneGo]
  | succ fuel => rw [pruneGo, hfind]

/-- Claim C2: on the state reached after phase 2, the pruning loop
terminates without error; in the terminal state no listed atom has degree
one (every degree is zero or at least two), and in every state visited by
the loop, the initial and all intermediate ones included, no degree counter
is negative. -/
theorem c2_prune_terminal (pts : List Point) (conns : List Connection) (dims : Vec3)
    (size : ℕ × ℕ × ℕ) (dangling symmetric : Bool) (st : BuildState)
    (h : buildPhase12 pts conns dims size dangling symmetric = .ok st) :
    ∃ st2, pruneVectors st = .ok st2 ∧
      (∀ id ∈ st2.full_atom_list, degOf st2.heap id = 0 ∨ 2 ≤ degOf st2.heap id) ∧
      (∀ stI ∈ pruneTrace st, ∀ a ∈ stI.heap, 0 ≤ a.bonds) := by
  have hw := buildPhase12_wf pts conns dims size dangling symmetric st h
  obtain ⟨st2, hgo, hw2, hf⟩ := pruneGo_total st.full_atom_list.length st hw le_rfl
  refine ⟨st2, hgo, ?_, ?_⟩
  · intro id hid
    obtain ⟨hnd2, hval2, hep2, hdeg2, hnn2⟩ := hw2
    have hne1 : ¬(degOf st2.heap id = 1) := by
      have := List.find?_eq_none.mp hf id hid
      simpa using this
    have hv := hval2 id hid
    obtain ⟨hlt, hat⟩ := atomAt_eq_getElem st2.heap id hv.1 hv.2
    have hge : 0 ≤ degOf st2.heap id := by
      rw [degOf, hat]
      exact hnn2 _ (List.getElem_mem hlt)
    omega
  · intro stI hI
    exact (pruneTraceGo_wf st.full_atom_list.length st hw stI hI).2.2.2.2

/-- Claim C2, witness: the build of the one point template without
connections on a single cell prunes to a terminal state with no degree one
atom and no negative degree along the trace. -/
theorem c2_prune_witness :
    ∃ st, buildPhase12 onePointT [] (1, 1, 1) (1, 1, 1) false false = .ok st ∧
      ∃ st2, pruneVectors st = .ok st2 ∧
        (∀ id ∈ st2.full_atom_list, degOf st2.heap id = 0 ∨ 2 ≤ degOf st2.heap id) ∧
        (∀ stI ∈ pruneTrace st, ∀ a ∈ stI.heap, 0 ≤ a.bonds) :=
  ⟨_, rfl, c2_prune_terminal onePointT [] (1, 1, 1) (1, 1, 1) false false _ rfl⟩

/-- Claim C9: on the state reached after phase 2 resolution, the degree
counter of every listed atom equals the number of vector pairs referencing
it as origin or partner, and the invariant is preserved by every pruning
step: it holds in every state visited by the pruning loop. -/
theorem c9_degree_refcount (pts : List Point) (conns : List Connection) (dims : Vec3)
    (size : ℕ × ℕ × ℕ) (dangling symmetric : Bool) (st : BuildState)
    (h : buildPhase12 pts conns dims size dangling symmetric = .ok st) :
    DegInv st ∧ ∀ st2 ∈ pruneTrace st, DegInv st2 := by
  have hw := buildPhase12_wf pts conns dims size dangling symmetric st h
  refine ⟨hw.2.2.2.1, ?_⟩
  intro st2 h2
  exact (pruneTraceGo_wf st.full_atom_list.length st hw st2 h2).2.2.2.1

/-- Claim C9, witness: the degree and reference count invariant on the
concrete build of the one point template on a single cell, after phase 2
and along the pruning trace. -/
theorem c9_degree_witness :
    ∃ st, buildPhase12 onePointT [] (1, 1, 1) (1, 1, 1) false false = .ok st ∧
      (DegInv st ∧ ∀ st2 ∈ pruneTrace st, DegInv st2) :=
  ⟨_, rfl, c9_degree_refcount onePointT [] (1, 1, 1) (1, 1, 1) false false _ rfl⟩

theorem sum_map_add {α : Type} (l : List α) (g h : α → ℕ) :
    (l.map (fun x => g x + h x)).sum = (l.map g).sum + (l.map h).sum := by
  induction l with
  | nil => simp
  | cons a l ih =>
    simp only [List.map_cons, List.sum_cons, ih]
    omega

theorem sum_ite_single (x : ℕ) : ∀ (fal : List ℕ), fal.Nodup → x ∈ fal →
    (fal.map (fun id => if x = id then (1 : ℕ) else 0)).sum = 1 := by
  intro fal
  induction fal with
  | nil => intro _ h; simp at h
  | cons a fal ih =>
    intro hnd hmem
    rw [List.map_cons, List.sum_cons]
    by_cases hxa : x = a
    · rw [if_pos hxa]
      have hnm : x ∉ fal := by
        rw [hxa]
        exact (List.nodup_cons.mp hnd).1
      have hz : (fal.map (fun id => if x = id then (1 : ℕ) else 0)).sum = 0 := by
        apply List.sum_eq_zero
        intro y hy
        obtain ⟨id, hidm, hid⟩ := List.mem_map.mp hy
        rw [← hid, if_neg (fun hc => hnm (by rw [hc]; exact hidm))]
      rw [hz]
    · rw [if_neg hxa]
      have hmem2 : x ∈ fal := by
        rcases List.mem_cons.mp hmem with hc | hc
        · exact absurd hc hxa
        · exact hc
      rw [ih (List.nodup_cons.mp hnd).2 hmem2]

theorem sum_map_count (f : ℕ × ℕ → ℕ) : ∀ (vl : List (ℕ × ℕ)) (fal : List ℕ),
    fal.Nodup → (∀ pr ∈ vl, f pr ∈ fal) →
    (fal.map (fun id => vl.countP (fun pr => decide (f pr = id)))).sum = vl.length := by
  intro vl
  induction vl with
  | nil =>
    intro fal _ _
    simp
  | cons pr vl ih =>
    intro fal hnd hmem
    have hsplit : (fal.map (fun id => (pr :: vl).countP (fun q => decide (f q = id)))).sum
        = (fal.map (fun id => vl.countP (fun q => decide (f q = id)))).sum
          + (fal.map (fun id => if f pr = id then (1 : ℕ) else 0)).sum := by
      rw [← sum_map_add]
      apply congrArg
      apply List.map_congr_left
      intro id _
      rw [List.countP_cons]
      by_cases hc : f pr = id
      · simp [hc]
      · simp [hc]
    rw [hsplit, ih fal hnd (fun q hq => hmem q (by simp [hq])),
      sum_ite_single (f pr) fal hnd (hmem pr (by simp)), List.length_cons]

theorem degSum_eq (st : BuildState) (h : WFState st) :
    degSum st = 2 * st.vector_list.length := by
  obtain ⟨hnd, hval, hep, hdeg, hnn⟩ := h
  rw [degSum]
  rw [List.map_congr_left (fun id hid => hdeg id hid)]
  have hcast : (st.full_atom_list.map (fun id => ((refCount id st.vector_list : ℕ) : ℤ))).sum
      = ((st.full_atom_list.map (fun id => refCount id st.vector_list)).sum : ℤ) := by
    rw [show st.full_atom_list.map (fun id => ((refCount id st.vector_list : ℕ) : ℤ)) =
      (st.full_atom_list.map (fun id => refCount id st.vector_list)).map
        (fun n => ((n : ℕ) : ℤ)) from by rw [List.map_map]; rfl]
    rw [Nat.cast_list_sum]
  rw [hcast]
  have hnat : (st.full_atom_list.map (fun id => refCount id st.vector_list)).sum
      = 2 * st.vector_list.length := by
    have hexp : st.full_atom_list.map (fun id => refCount id st.vector_list)
        = st.full_atom_list.map (fun id =>
            st.vector_list.countP (fun pr => decide (pr.1 = id)) +
            st.vector_list.countP (fun pr => decide (pr.2 = id))) := rfl
    rw [hexp, sum_map_add,
      sum_map_count (fun pr => pr.1) st.vector_list st.full_atom_list hnd
        (fun pr hpr => (hep pr hpr).1),
      sum_map_count (fun pr => pr.2) st.vector_list st.full_atom_list hnd
        (fun pr hpr => (hep pr hpr).2)]
    omega
  rw [hnat]
  push_cast
  ring

/-- Claim C3: on the state reached after phase 2 edge resolution and before
pruning, the sum of the degree counters over the full atom list equals
exactly two times the number of resolved vector pairs. -/
theorem c3_degree_sum (pts : List Point) (conns : List Connection) (dims : Vec3)
    (size : ℕ × ℕ × ℕ) (dangling symmetric : Bool) (st : BuildState)
    (h : buildPhase12 pts conns dims size dangling symmetric = .ok st) :
    degSum st = 2 * st.vector_list.length :=
  degSum_eq st (buildPhase12_wf pts conns dims size dangling symmetric st h)

/-- Claim C3, witness: the degree sum identity on the concrete build of the
one point template on a single cell. -/
theorem c3_degree_witness :
    ∃ st, buildPhase12 onePointT [] (1, 1, 1) (1, 1, 1) false false = .ok st ∧
      degSum st = 2 * st.vector_list.length :=
  ⟨_, rfl, c3_degree_sum onePointT [] (1, 1, 1) (1, 1, 1) false false _ rfl⟩

theorem vectorLengthQ_one : vectorLengthQ 1 = 1 := by
  rw [vectorLengthQ, show sqrtBound 1 = 2 from by norm_num [sqrtBound, Int.toNat]]
  norm_num [Nat.findGreatest, lenPred, float_safety]

/-- Claim C4, amended: the prune flag is applied independently of the
dangling flag (line 143 of Lattice.py tests prune alone); the build outputs
for prune enabled and prune disabled agree exactly on those builds whose
phase 2 state has no atom of degree one, and in particular a dangling
disabled build with an atom of degree one is changed by the prune flag. -/
theorem c4_prune_flag (pts : List Point) (conns : List Connection) (dims : Vec3)
    (size : ℕ × ℕ × ℕ) (dangling symmetric : Bool) (st : BuildState)
    (h : buildPhase12 pts conns dims size dangling symmetric = .ok st)
    (hnone : st.full_atom_list.find? (fun id => decide (degOf st.heap id = 1)) = none) :
    buildListsCore pts conns dims size dangling symmetric true =
      buildListsCore pts conns dims size dangling symmetric false := by
  have hpv : pruneVectors st = .ok st := pruneGo_none st.full_atom_list.length st hnone
  rw [buildListsCore, buildListsCore, bind_ok_left h, bind_ok_left h]
  simp only []
  rw [if_pos trivial, bind_ok_left hpv]
  rfl

/-- Claim C4, witness: the one point template without connections on a
single cell has no degree one atom after phase 2, so the prune flag does
not change the outputs there. -/
theorem c4_prune_flag_witness :
    buildListsCore onePointT [] (1, 1, 1) (1, 1, 1) false false true =
      buildListsCore onePointT [] (1, 1, 1) (1, 1, 1) false false false :=
  c4_prune_flag onePointT [] (1, 1, 1) (1, 1, 1) false false _ rfl rfl

/-- Claim C4, counterexample: the two point template with one intra cell
connection, built on a single cell with dangling disabled. After phase 2
both atoms have degree one, so with prune enabled the pruning loop removes
the vector pair and atom 1, leaving one output atom, while with prune
disabled both atoms remain: the outputs differ although dangling is
disabled, refuting the claim that the prune flag has no observable effect
unless dangling is enabled. -/
theorem c4_counterexample :
    ∃ stT stF,
      buildListsCore c4pts [c4conn] (1, 1, 1) (1, 1, 1) false false true = .ok stT ∧
      buildListsCore c4pts [c4conn] (1, 1, 1) (1, 1, 1) false false false = .ok stF ∧
      stT.full_atom_list = [2] ∧ stF.full_atom_list = [1, 2] ∧
      outputsOf stT ≠ outputsOf stF := by
  refine ⟨_, _, rfl, rfl, rfl, ?hF, ?hne⟩
  case hF =>
    norm_num [populateAll, populateVector, popLoop, pushAtom, pushBond, fillerAtom,
      atomAt, List.getD, sub3, sqNorm3, divScal3, add3, smul3, cellOrigin,
      vectorLengthQ_one, phase2, phase2Cell, resolveConn, projMatch, gridAtoms,
      cellList, p1Init, bumpDeg, bumpAt, degOf, c4pts, c4conn, cellAdd,
      List.find?, List.erase]
  case hne =>
    intro heq
    have h1 := congrArg (fun pr => pr.1.length) heq
    simp only [outputsOf, List.length_map] at h1
    norm_num [populateAll, populateVector, popLoop, pushAtom, pushBond, fillerAtom,
      atomAt, List.getD, sub3, sqNorm3, divScal3, add3, smul3, cellOrigin,
      vectorLengthQ_one, phase2, phase2Cell, resolveConn, projMatch, gridAtoms,
      cellList, p1Init, bumpDeg, bumpAt, degOf, c4pts, c4conn, cellAdd,
      List.find?, List.erase] at h1
